import Mathlib

/-!
Verification of the navigation core of the Maze-Solver game
("maze game 2.0/maze.py"): grid rasterization (PathFinder.__init__),
the shortest-route search (PathFinder.shortest), the approximate longest
route (PathFinder.longest_approx), the trajectory recorder (MoveRecorder)
and the per-frame autopilot block of QuantumMazeGame.update.

Modelling conventions:
* Python floats are modelled as exact rationals (ℚ), Python ints as ℤ
  (ℕ for counters that are provably nonnegative).
* Python floor division `//` by the positive constant CELL_SIZE = 40 is
  ℤ's `/` (Euclidean division, which coincides with floor division for a
  positive divisor).
* Python dicts are modelled as insertion-ordered association lists
  (CPython dicts preserve insertion order, which the code relies on).
-/

namespace MazeGame

/-- `CELL_SIZE = 40` (maze.py, Constants). -/
def CELL_SIZE : ℤ := 40

/-- A grid cell `(col, row)` — a pair of Python ints. -/
abbrev Cell := ℤ × ℤ

/-- A world-coordinate point (Python floats, modelled exactly). -/
abbrev Pt := ℚ × ℚ

/-- A pygame `Rect(x, y, w, h)`; `left/top/right/bottom` are derived the way
pygame derives them (`right = x + w`, `bottom = y + h`). -/
structure Rect where
  x : ℤ
  y : ℤ
  w : ℤ
  h : ℤ
deriving DecidableEq

def Rect.left (r : Rect) : ℤ := r.x

def Rect.top (r : Rect) : ℤ := r.y

def Rect.right (r : Rect) : ℤ := r.x + r.w

def Rect.bottom (r : Rect) : ℤ := r.y + r.h

/-- The slice of `Level` that `PathFinder.__init__` reads: the world pixel
size and the wall rectangles. -/
structure Level where
  world_w : ℤ
  world_h : ℤ
  walls : List Rect

/-- `PathFinder` after `__init__`: grid size and the wall list its `blocked`
set was built from. -/
structure PathFinder where
  cols : ℤ
  rows : ℤ
  walls : List Rect

/-- `PathFinder.__init__`: `self.cols = int(level.world_w // CELL_SIZE)` and
`self.rows = int(level.world_h // CELL_SIZE)` (floor division; `int` is the
identity on ints). -/
def PathFinder.ofLevel (lvl : Level) : PathFinder :=
  { cols := lvl.world_w / CELL_SIZE
    rows := lvl.world_h / CELL_SIZE
    walls := lvl.walls }

/-- Membership in `self.blocked`: the nested loops of `__init__` add, for each
wall `w`, exactly the cells `(cx, cy)` with `x0 ≤ cx ≤ x1` and `y0 ≤ cy ≤ y1`
where `x0 = max(0, w.left // CELL_SIZE)`,
`x1 = min(cols - 1, (w.right - 1) // CELL_SIZE)` and similarly for rows.
So a cell is in the set iff some wall's clamped ranges contain it. -/
def Blocked (pf : PathFinder) (c : Cell) : Prop :=
  ∃ w ∈ pf.walls,
    max 0 (w.left / CELL_SIZE) ≤ c.1 ∧
    c.1 ≤ min (pf.cols - 1) ((w.right - 1) / CELL_SIZE) ∧
    max 0 (w.top / CELL_SIZE) ≤ c.2 ∧
    c.2 ≤ min (pf.rows - 1) ((w.bottom - 1) / CELL_SIZE)

instance (pf : PathFinder) (c : Cell) : Decidable (Blocked pf c) := by
  unfold Blocked; exact List.decidableBEx _ _

/-- `_pt_to_cell`: `int(x // CELL_SIZE)` clamped into `[0, cols-1]` and
`[0, rows-1]` (on a float, `x // 40` floors and `int` then maps the integral
float to the same integer). -/
def pt_to_cell (pf : PathFinder) (p : Pt) : Cell :=
  (max 0 (min (pf.cols - 1) ⌊p.1 / (CELL_SIZE : ℚ)⌋),
   max 0 (min (pf.rows - 1) ⌊p.2 / (CELL_SIZE : ℚ)⌋))

/-- `_cell_to_pt`: the pixel center `(c*CELL_SIZE + CELL_SIZE//2, …)`,
with `CELL_SIZE // 2 = 20`. -/
def cell_to_pt (c : Cell) : ℤ × ℤ :=
  (c.1 * CELL_SIZE + CELL_SIZE / 2, c.2 * CELL_SIZE + CELL_SIZE / 2)

/-- `_neighbors`: of the four candidates `(cx+1,cy), (cx-1,cy), (cx,cy+1),
(cx,cy-1)` (in that order), those that are in bounds and not blocked. -/
def neighbors (pf : PathFinder) (c : Cell) : List Cell :=
  [(c.1 + 1, c.2), (c.1 - 1, c.2), (c.1, c.2 + 1), (c.1, c.2 - 1)].filter
    (fun n => decide (0 ≤ n.1 ∧ n.1 < pf.cols ∧ 0 ≤ n.2 ∧ n.2 < pf.rows ∧ ¬ Blocked pf n))

/-- Spec-side notion for C2: the half-open pixel rectangle
`[c₁·40, (c₁+1)·40) × [c₂·40, (c₂+1)·40)` of cell `c` intersects rectangle
`w = [left, right) × [top, bottom)` in a region of positive area (the
rectangle's maximal x/y edges are exclusive). -/
def OverlapsPos (w : Rect) (c : Cell) : Prop :=
  max w.left (c.1 * CELL_SIZE) < min w.right ((c.1 + 1) * CELL_SIZE) ∧
  max w.top (c.2 * CELL_SIZE) < min w.bottom ((c.2 + 1) * CELL_SIZE)

/-- C2: for a grid index built from obstacles of positive width and height,
an in-grid cell is in `blocked` iff its pixel rectangle overlaps at least one
obstacle rectangle with positive area (treating the obstacle's maximal x/y
edges as exclusive).  In particular every cell strictly outside all obstacles
is free. -/
theorem claim_C2 (lvl : Level)
    (hw : ∀ w ∈ lvl.walls, 0 < w.w ∧ 0 < w.h) (c : Cell)
    (h1 : 0 ≤ c.1) (h2 : c.1 < (PathFinder.ofLevel lvl).cols)
    (h3 : 0 ≤ c.2) (h4 : c.2 < (PathFinder.ofLevel lvl).rows) :
    Blocked (PathFinder.ofLevel lvl) c ↔ ∃ w ∈ lvl.walls, OverlapsPos w c := by
  simp only [Blocked, OverlapsPos, PathFinder.ofLevel, CELL_SIZE,
    Rect.left, Rect.right, Rect.top, Rect.bottom] at *
  constructor
  · rintro ⟨w, hmem, hx0, hx1, hy0, hy1⟩
    obtain ⟨hww, hwh⟩ := hw w hmem
    exact ⟨w, hmem, by constructor <;> omega⟩
  · rintro ⟨w, hmem, hov1, hov2⟩
    exact ⟨w, hmem, by refine ⟨?_, ?_, ?_, ?_⟩ <;> omega⟩

/-- A small concrete level used by witnesses: a 120×80 world with one
10×40 wall straddling the boundary between cells (0,0) and (1,0). -/
def levelA : Level := { world_w := 120, world_h := 80, walls := [⟨35, 0, 10, 40⟩] }

/-- C2 witness: a concrete instance of the hypotheses of `claim_C2`. -/
theorem claim_C2_witness :
    (∀ w ∈ levelA.walls, 0 < w.w ∧ 0 < w.h) ∧
    (0 : ℤ) ≤ 1 ∧ (1 : ℤ) < (PathFinder.ofLevel levelA).cols ∧
    (Blocked (PathFinder.ofLevel levelA) (1, 0) ↔
      ∃ w ∈ levelA.walls, OverlapsPos w (1, 0)) :=
  ⟨by decide, by decide, by decide,
    claim_C2 levelA (by decide) (1, 0) (by decide) (by decide) (by decide) (by decide)⟩

/-- C8 counterexample: for a 100×80-pixel world the code computes
`cols = 100 // 40 = 2`, while `ceil(100/40) = 3`. -/
theorem claim_C8_cex :
    (PathFinder.ofLevel { world_w := 100, world_h := 80, walls := [] }).cols
      ≠ ⌈(100 : ℚ) / 40⌉ := by
  have h1 : (PathFinder.ofLevel { world_w := 100, world_h := 80, walls := [] }).cols = 2 := by
    decide
  have h2 : ⌈(100 : ℚ) / 40⌉ = 3 := by
    rw [Int.ceil_eq_iff] <;> norm_num
  rw [h1, h2]
  decide

/-- The floor of the exact rational quotient `a / 40` is ℤ's Euclidean
division `a / 40` (floor division, since the divisor is positive). -/
theorem ediv_eq_ratFloor (a : ℤ) : a / CELL_SIZE = ⌊(a : ℚ) / (CELL_SIZE : ℚ)⌋ := by
  have h40 : (0 : ℚ) < 40 := by norm_num
  have hz1 : (40 : ℤ) * (a / 40) ≤ a := by omega
  have hz2 : a < 40 * (a / 40) + 40 := by omega
  rw [show CELL_SIZE = 40 from rfl]
  symm
  rw [Int.floor_eq_iff]
  push_cast
  constructor
  · rw [le_div_iff h40, mul_comm]
    exact_mod_cast hz1
  · rw [div_lt_iff h40, add_mul, one_mul, mul_comm]
    exact_mod_cast hz2

/-- C8 amended: the number of columns (rows) is the floor — not the
ceiling — of worldWidth/cellSize (worldHeight/cellSize). -/
theorem claim_C8_amended (lvl : Level) :
    (PathFinder.ofLevel lvl).cols = ⌊(lvl.world_w : ℚ) / (CELL_SIZE : ℚ)⌋ ∧
    (PathFinder.ofLevel lvl).rows = ⌊(lvl.world_h : ℚ) / (CELL_SIZE : ℚ)⌋ :=
  ⟨ediv_eq_ratFloor _, ediv_eq_ratFloor _⟩

/-! ## MoveRecorder (`maze.py`, class MoveRecorder) -/

/-- Squared Euclidean distance, computed the way the source computes it
(`(x - lx) * (x - lx) + (y - ly) * (y - ly)`). -/
def sqDist (a b : Pt) : ℚ :=
  (a.1 - b.1) * (a.1 - b.1) + (a.2 - b.2) * (a.2 - b.2)

theorem sqDist_comm (a b : Pt) : sqDist a b = sqDist b a := by
  unfold sqDist; ring

theorem sqDist_nonneg (a b : Pt) : 0 ≤ sqDist a b := by
  unfold sqDist
  nlinarith [sq_nonneg (a.1 - b.1), sq_nonneg (a.2 - b.2)]

/-- `(l.drop n).getLast?` is `l.getLast?` as long as something is left. -/
theorem getLast?_drop_of_lt {α : Type} (l : List α) (n : ℕ) (h : n < l.length) :
    (l.drop n).getLast? = l.getLast? := by
  rw [List.getLast?_eq_getElem?, List.getLast?_eq_getElem?, List.getElem?_drop,
    List.length_drop]
  congr 1
  omega

/-- `MoveRecorder` state: `sample_dist`, `max_points`, `points`, `_last`. -/
structure MoveRecorder where
  sample_dist : ℚ
  max_points : ℕ
  points : List Pt
  last : Option Pt

/-- `MoveRecorder.__init__(sample_dist, max_points)`. -/
def mkRecorder (sd : ℚ) (mp : ℕ) : MoveRecorder :=
  { sample_dist := sd, max_points := mp, points := [], last := none }

/-- The truncation step of `add`:
`if len(self.points) > self.max_points: self.points = self.points[-self.max_points:]`.
For `max_points ≥ 1` the slice keeps the newest `max_points` entries;
Python's `[-0:]` is `[0:]`, so `max_points = 0` keeps the whole list. -/
def truncatePts (mp : ℕ) (pts : List Pt) : List Pt :=
  if mp < pts.length then
    (if mp = 0 then pts else pts.drop (pts.length - mp))
  else pts

/-- `MoveRecorder.add(pos)`.  The `last = none` branch with nonempty `points`
is unreachable from `mkRecorder` (there the source would raise while
unpacking `self._last`); the state is returned unchanged. -/
def MoveRecorder.add (r : MoveRecorder) (pos : Pt) : MoveRecorder :=
  if r.points.isEmpty then
    { r with points := [pos], last := some pos }
  else
    match r.last with
    | none => r
    | some l =>
      if r.sample_dist * r.sample_dist ≤ sqDist pos l then
        { r with points := truncatePts r.max_points (r.points ++ [pos]),
                 last := some pos }
      else r

/-- A sequence of `record` calls starting from a fresh recorder. -/
def runAdds (sd : ℚ) (mp : ℕ) (ps : List Pt) : MoveRecorder :=
  ps.foldl MoveRecorder.add (mkRecorder sd mp)

/-- The inductive invariant of `MoveRecorder.add`: `_last` caches the final
stored sample, consecutive stored samples are at least `sample_dist` apart
(in squared form), and (for a positive capacity) the count is bounded. -/
def RecorderInv (r : MoveRecorder) : Prop :=
  r.last = r.points.getLast? ∧
  List.Chain' (fun a b => r.sample_dist * r.sample_dist ≤ sqDist b a) r.points ∧
  (0 < r.max_points → r.points.length ≤ r.max_points)

theorem truncatePts_chain {R : Pt → Pt → Prop} {pts : List Pt} (mp : ℕ)
    (h : List.Chain' R pts) : List.Chain' R (truncatePts mp pts) := by
  unfold truncatePts
  split
  · split
    · exact h
    · exact h.drop _
  · exact h

theorem truncatePts_getLast (mp : ℕ) (pts : List Pt) (hne : pts ≠ []) :
    (truncatePts mp pts).getLast? = pts.getLast? := by
  unfold truncatePts
  split
  · split
    · rfl
    · refine getLast?_drop_of_lt pts _ ?_
      have : 0 < pts.length := List.length_pos.mpr hne
      omega
  · rfl

theorem truncatePts_length_le (mp : ℕ) (pts : List Pt) (h0 : 0 < mp)
    (hb : pts.length ≤ mp + 1) : (truncatePts mp pts).length ≤ mp := by
  unfold truncatePts
  split
  · rw [if_neg (by omega), List.length_drop]
    omega
  · next h => omega

theorem recorderInv_add {r : MoveRecorder} (h : RecorderInv r) (pos : Pt) :
    RecorderInv (r.add pos) := by
  obtain ⟨hlast, hchain, hlen⟩ := h
  unfold MoveRecorder.add
  by_cases hemp : r.points.isEmpty
  · rw [if_pos hemp]
    exact ⟨by simp, List.chain'_singleton _, fun h1 => h1⟩
  · rw [if_neg hemp]
    have hne : r.points ≠ [] := by simpa [List.isEmpty_iff] using hemp
    cases hrl : r.last with
    | none =>
        rw [hlast] at hrl
        exact absurd (List.getLast?_eq_none_iff.mp hrl) hne
    | some l =>
        have hl : r.points.getLast? = some l := hlast.symm.trans hrl
        dsimp only
        by_cases hfar : r.sample_dist * r.sample_dist ≤ sqDist pos l
        · rw [if_pos hfar]
          have hchain2 : List.Chain'
              (fun a b => r.sample_dist * r.sample_dist ≤ sqDist b a)
              (r.points ++ [pos]) := by
            rw [List.chain'_append]
            refine ⟨hchain, List.chain'_singleton _, ?_⟩
            intro x hx y hy
            rw [hl] at hx
            simp only [Option.mem_def, Option.some.injEq] at hx
            simp only [List.head?_cons, Option.mem_def, Option.some.injEq] at hy
            subst hx; subst hy
            exact hfar
          have hlast2 : (r.points ++ [pos]).getLast? = some pos := by simp
          refine ⟨?_, truncatePts_chain _ hchain2, fun hmp => ?_⟩
          · show some pos = _
            rw [truncatePts_getLast _ _ (by simp), hlast2]
          · have hmp' : 0 < r.max_points := hmp
            show (truncatePts r.max_points (r.points ++ [pos])).length ≤ r.max_points
            refine truncatePts_length_le _ _ hmp' ?_
            have hlb := hlen hmp'
            simp only [List.length_append, List.length_cons, List.length_nil]
            omega
        · rw [if_neg hfar]
          exact ⟨hlast, hchain, hlen⟩

theorem recorderInv_runAdds (sd : ℚ) (mp : ℕ) (ps : List Pt) :
    RecorderInv (runAdds sd mp ps) := by
  unfold runAdds
  have base : RecorderInv (mkRecorder sd mp) := by
    refine ⟨rfl, List.chain'_nil, fun _ => by simp [mkRecorder]⟩
  generalize mkRecorder sd mp = r0 at base ⊢
  induction ps generalizing r0 with
  | nil => exact base
  | cons p rest ih => exact ih _ (recorderInv_add base p)

theorem add_sample_dist (r : MoveRecorder) (p : Pt) :
    (r.add p).sample_dist = r.sample_dist := by
  unfold MoveRecorder.add
  by_cases h : r.points.isEmpty
  · simp [h]
  · simp only [h, if_false]
    cases r.last with
    | none => rfl
    | some l =>
      by_cases hf : r.sample_dist * r.sample_dist ≤ sqDist p l <;> simp [hf]

theorem add_max_points (r : MoveRecorder) (p : Pt) :
    (r.add p).max_points = r.max_points := by
  unfold MoveRecorder.add
  by_cases h : r.points.isEmpty
  · simp [h]
  · simp only [h, if_false]
    cases r.last with
    | none => rfl
    | some l =>
      by_cases hf : r.sample_dist * r.sample_dist ≤ sqDist p l <;> simp [hf]

theorem runAdds_sample_dist (sd : ℚ) (mp : ℕ) (ps : List Pt) :
    (runAdds sd mp ps).sample_dist = sd ∧ (runAdds sd mp ps).max_points = mp := by
  unfold runAdds
  have : (mkRecorder sd mp).sample_dist = sd ∧ (mkRecorder sd mp).max_points = mp :=
    ⟨rfl, rfl⟩
  generalize mkRecorder sd mp = r0 at this ⊢
  induction ps generalizing r0 with
  | nil => exact this
  | cons p rest ih =>
      exact ih _ ⟨(add_sample_dist r0 p).trans this.1, (add_max_points r0 p).trans this.2⟩

/-- C6: after any sequence of `record` calls on a recorder with positive
capacity and nonnegative spacing, every two consecutive stored samples are at
least `sample_dist` apart in Euclidean distance (stated with `List.Chain'`,
which asserts the relation for each adjacent pair), and the stored count never
exceeds `max_points`. -/
theorem claim_C6 (sd : ℚ) (mp : ℕ) (ps : List Pt) (hmp : 0 < mp) (hsd : 0 ≤ sd) :
    List.Chain'
      (fun a b => (sd : ℝ) ≤
        Real.sqrt (((a.1 - b.1 : ℚ) : ℝ) ^ 2 + ((a.2 - b.2 : ℚ) : ℝ) ^ 2))
      (runAdds sd mp ps).points ∧
    (runAdds sd mp ps).points.length ≤ mp := by
  obtain ⟨hlast, hchain, hlen⟩ := recorderInv_runAdds sd mp ps
  obtain ⟨hsd', hmp'⟩ := runAdds_sample_dist sd mp ps
  rw [hsd'] at hchain
  rw [hmp'] at hlen
  refine ⟨?_, hlen hmp⟩
  refine hchain.imp ?_
  intro a b hab
  have hsq : (sd : ℝ) ^ 2 ≤ ((a.1 - b.1 : ℚ) : ℝ) ^ 2 + ((a.2 - b.2 : ℚ) : ℝ) ^ 2 := by
    have hQ : sd * sd ≤ (a.1 - b.1) * (a.1 - b.1) + (a.2 - b.2) * (a.2 - b.2) := by
      have h0 := hab
      unfold sqDist at h0
      nlinarith [h0]
    have hR : ((sd * sd : ℚ) : ℝ) ≤
        (((a.1 - b.1) * (a.1 - b.1) + (a.2 - b.2) * (a.2 - b.2) : ℚ) : ℝ) := by
      exact_mod_cast hQ
    push_cast at hR ⊢
    nlinarith [hR]
  calc (sd : ℝ) = Real.sqrt ((sd : ℝ) ^ 2) := (Real.sqrt_sq (by exact_mod_cast hsd)).symm
    _ ≤ _ := Real.sqrt_le_sqrt hsq

/-- C6 witness: concrete inputs satisfying the hypotheses of `claim_C6`. -/
theorem claim_C6_witness :
    (0 < 3 ∧ (0 : ℚ) ≤ 8) ∧
    (List.Chain'
      (fun a b : Pt => ((8 : ℚ) : ℝ) ≤
        Real.sqrt (((a.1 - b.1 : ℚ) : ℝ) ^ 2 + ((a.2 - b.2 : ℚ) : ℝ) ^ 2))
      (runAdds 8 3 [(0, 0), (3, 0), (9, 0), (20, 0), (40, 0)]).points ∧
    (runAdds 8 3 [(0, 0), (3, 0), (9, 0), (20, 0), (40, 0)]).points.length ≤ 3) :=
  ⟨⟨by norm_num, by norm_num⟩,
    claim_C6 8 3 [(0, 0), (3, 0), (9, 0), (20, 0), (40, 0)] (by norm_num) (by norm_num)⟩

/-- The linear scan of `backtrack_from`:
`best_i, best_d2 = 0, float('inf')`, then for each `(i, (px, py))` in
`enumerate(self.points)`, `if d2 < best_d2: best_d2 = d2; best_i = i`
(so the first index attaining the minimum wins exact ties).  The
accumulator's `none` models the initial infinity: any distance beats it. -/
def scanMin (cur : Pt) : List Pt → ℕ → ℕ × Option ℚ → ℕ × Option ℚ
  | [], _, acc => acc
  | p :: rest, i, (bi, bd) =>
      match bd with
      | none => scanMin cur rest (i + 1) (i, some (sqDist p cur))
      | some v =>
          if sqDist p cur < v then scanMin cur rest (i + 1) (i, some (sqDist p cur))
          else scanMin cur rest (i + 1) (bi, some v)

/-- The `best_i` computed by the scan over the whole sample list. -/
def bestIdx (pts : List Pt) (cur : Pt) : ℕ := (scanMin cur pts 0 (0, none)).1

/-- `MoveRecorder.backtrack_from(current_pos, include_current)`:
empty history gives `[]`; otherwise take the prefix through the nearest
sample (`self.points[:best_i + 1]`, a fresh list), overwrite its last entry
with the query point when `include_current` (and the prefix is nonempty),
and reverse. -/
def MoveRecorder.backtrack_from (r : MoveRecorder) (cur : Pt)
    (include_current : Bool) : List Pt :=
  if r.points.isEmpty then []
  else
    (if include_current && !(r.points.take (bestIdx r.points cur + 1)).isEmpty then
      (r.points.take (bestIdx r.points cur + 1)).dropLast ++ [cur]
    else r.points.take (bestIdx r.points cur + 1)).reverse

/-- Three bookkeeping facts about a cons-decomposition of `drop`. -/
theorem drop_cons_facts {α : Type} (l : List α) (p : α) (rest : List α) (i : ℕ)
    (d : α) (h : l.drop i = p :: rest) :
    l.getD i d = p ∧ l.drop (i + 1) = rest ∧ i < l.length := by
  refine ⟨?_, ?_, ?_⟩
  · unfold List.getD
    rw [List.get?_eq_getElem?]
    have h0 : l[i]? = (l.drop i)[0]? := by rw [List.getElem?_drop]; norm_num
    rw [h0, h]
    simp
  · have h2 : (l.drop i).drop 1 = rest := by rw [h]; rfl
    rw [List.drop_drop] at h2
    exact h2
  · by_contra hc
    push_neg at hc
    rw [List.drop_eq_nil_of_le hc] at h
    exact List.noConfusion h

/-- Invariant-carrying induction for `scanMin`: starting from an accumulator
that is a first-strict-minimum of the already processed prefix, the scan ends
in a first-strict-minimum of the whole list. -/
theorem scanMin_go (cur : Pt) (pts : List Pt) :
    ∀ (l : List Pt) (i bi : ℕ), pts.drop i = l → bi < pts.length →
      (∀ j, j < i →
        sqDist (pts.getD bi (0, 0)) cur ≤ sqDist (pts.getD j (0, 0)) cur) →
      (∀ j, j < bi →
        sqDist (pts.getD bi (0, 0)) cur < sqDist (pts.getD j (0, 0)) cur) →
      ∃ ri, scanMin cur l i (bi, some (sqDist (pts.getD bi (0, 0)) cur)) =
          (ri, some (sqDist (pts.getD ri (0, 0)) cur)) ∧
        ri < pts.length ∧
        (∀ j, j < pts.length →
          sqDist (pts.getD ri (0, 0)) cur ≤ sqDist (pts.getD j (0, 0)) cur) ∧
        (∀ j, j < ri →
          sqDist (pts.getD ri (0, 0)) cur < sqDist (pts.getD j (0, 0)) cur) := by
  intro l
  induction l with
  | nil =>
      intro i bi hdrop hbi H1 H2
      refine ⟨bi, rfl, hbi, fun j hj => ?_, H2⟩
      have hi : pts.length ≤ i := by
        by_contra hc
        push_neg at hc
        rw [List.drop_eq_nil_iff] at hdrop
        omega
      exact H1 j (by omega)
  | cons p rest ih =>
      intro i bi hdrop hbi H1 H2
      obtain ⟨hp, hdrop2, hilen⟩ := drop_cons_facts pts p rest i (0, 0) hdrop
      show ∃ ri, (match some (sqDist (pts.getD bi (0, 0)) cur) with
        | none => scanMin cur rest (i + 1) (i, some (sqDist p cur))
        | some v =>
            if sqDist p cur < v then scanMin cur rest (i + 1) (i, some (sqDist p cur))
            else scanMin cur rest (i + 1) (bi, some v)) = _ ∧ _
      dsimp only
      by_cases hlt : sqDist p cur < sqDist (pts.getD bi (0, 0)) cur
      · rw [if_pos hlt]
        rw [← hp]
        refine ih (i + 1) i hdrop2 hilen (fun j hj => ?_) (fun j hj => ?_)
        · rcases Nat.lt_succ_iff_lt_or_eq.mp hj with hj2 | hj2
          · rw [hp]
            exact le_of_lt (lt_of_lt_of_le hlt (H1 j hj2))
          · subst hj2; exact le_refl _
        · rw [hp]
          exact lt_of_lt_of_le hlt (H1 j hj)
      · rw [if_neg hlt]
        refine ih (i + 1) bi hdrop2 hbi (fun j hj => ?_) H2
        rcases Nat.lt_succ_iff_lt_or_eq.mp hj with hj2 | hj2
        · exact H1 j hj2
        · subst hj2
          rw [hp]
          exact le_of_not_lt hlt

/-- The scan's result is the first index of a minimum-distance sample. -/
theorem bestIdx_spec (pts : List Pt) (cur : Pt) (hne : pts ≠ []) :
    bestIdx pts cur < pts.length ∧
    (∀ j, j < pts.length →
      sqDist (pts.getD (bestIdx pts cur) (0, 0)) cur ≤ sqDist (pts.getD j (0, 0)) cur) ∧
    (∀ j, j < bestIdx pts cur →
      sqDist (pts.getD (bestIdx pts cur) (0, 0)) cur < sqDist (pts.getD j (0, 0)) cur) := by
  cases pts with
  | nil => exact absurd rfl hne
  | cons p0 rest =>
      have hstep : scanMin cur (p0 :: rest) 0 (0, none) =
          scanMin cur rest 1 (0, some (sqDist ((p0 :: rest).getD 0 (0, 0)) cur)) := rfl
      obtain ⟨ri, hre, hlen, Hle, Hlt⟩ :=
        scanMin_go cur (p0 :: rest) rest 1 0 rfl (by simp)
          (fun j hj => by
            interval_cases j
            exact le_refl _)
          (fun j hj => by omega)
      refine ⟨?_, ?_, ?_⟩ <;>
        simp only [bestIdx, hstep, hre] <;> first | exact hlen | exact Hle | exact Hlt

/-- C7: reversing `backtrack(p, includeCurrent := true)` yields exactly the
prefix of the recorded history up to the sample nearest to `p` (first minimum
of squared distance winning exact ties), with that nearest sample replaced by
`p` itself — i.e. `take i ++ [p]` where `i` is the nearest index. -/
theorem claim_C7 (r : MoveRecorder) (cur : Pt) (hne : r.points ≠ []) :
    ∃ i, ∃ hi : i < r.points.length,
      (∀ j (hj : j < r.points.length),
          sqDist (r.points.get ⟨i, hi⟩) cur ≤ sqDist (r.points.get ⟨j, hj⟩) cur) ∧
      (∀ j (hj : j < i),
          sqDist (r.points.get ⟨i, hi⟩) cur
            < sqDist (r.points.get ⟨j, lt_trans hj hi⟩) cur) ∧
      (r.backtrack_from cur true).reverse = r.points.take i ++ [cur] := by
  obtain ⟨hlen, Hle, Hlt⟩ := bestIdx_spec r.points cur hne
  refine ⟨bestIdx r.points cur, hlen, ?_, ?_, ?_⟩
  · intro j hj
    have h0 := Hle j hj
    rwa [List.getD_eq_get _ _ hlen, List.getD_eq_get _ _ hj] at h0
  · intro j hj
    have h0 := Hlt j hj
    rwa [List.getD_eq_get _ _ hlen, List.getD_eq_get _ _ (lt_trans hj hlen)] at h0
  · unfold MoveRecorder.backtrack_from
    rw [if_neg (fun h => hne (List.isEmpty_iff.mp h))]
    have htake : (r.points.take (bestIdx r.points cur + 1)).isEmpty = false := by
      rw [← Bool.not_eq_true, List.isEmpty_iff]
      intro h0
      rw [List.take_eq_nil_iff] at h0
      rcases h0 with h0 | h0
      · exact Nat.succ_ne_zero _ h0
      · exact hne h0
    have hcond : (true && !(r.points.take (bestIdx r.points cur + 1)).isEmpty) = true := by
      rw [htake]; rfl
    rw [List.reverse_reverse, if_pos hcond]
    have hdl : (r.points.take (bestIdx r.points cur + 1)).dropLast
        = r.points.take (bestIdx r.points cur) := by
      rw [List.dropLast_eq_take, List.length_take, List.take_take]
      congr 1
      omega
    rw [hdl]

/-- A concrete recorder state used by the C7 witness. -/
def recB : MoveRecorder :=
  { sample_dist := 8, max_points := 100,
    points := [((0 : ℚ), (0 : ℚ)), (10, 0), (20, 0)], last := some (20, 0) }

/-- C7 witness: `claim_C7` applied to a concrete nonempty history. -/
theorem claim_C7_witness :
    recB.points ≠ [] ∧
    (∃ i, ∃ hi : i < recB.points.length,
      (∀ j (hj : j < recB.points.length),
          sqDist (recB.points.get ⟨i, hi⟩) (11, 0)
            ≤ sqDist (recB.points.get ⟨j, hj⟩) (11, 0)) ∧
      (∀ j (hj : j < i),
          sqDist (recB.points.get ⟨i, hi⟩) (11, 0)
            < sqDist (recB.points.get ⟨j, lt_trans hj hi⟩) (11, 0)) ∧
      (recB.backtrack_from (11, 0) true).reverse = recB.points.take i ++ [(11, 0)]) :=
  ⟨by decide, claim_C7 recB (11, 0) (by decide)⟩

/-- `backtrack_from` as a state transformer on the recorder object: the
method only reads `self.points`; `back = self.points[:best_i + 1]` copies the
slice into a fresh list, and the subsequent `back[-1] = …` and
`back.reverse()` mutate that fresh list only.  No attribute of `self` is
assigned, so the recorder-state component of the result is the input state. -/
def backtrackS (r : MoveRecorder) (cur : Pt) (include_current : Bool) :
    List Pt × MoveRecorder :=
  (r.backtrack_from cur include_current, r)

/-- C10: a `backtrack` call leaves the recorder's stored sample history (and
the whole recorder state) unchanged. -/
theorem claim_C10 (r : MoveRecorder) (cur : Pt) (inc : Bool) :
    (backtrackS r cur inc).2.points = r.points ∧ (backtrackS r cur inc).2 = r :=
  ⟨rfl, rfl⟩

/-! ## Autopilot (`QuantumMazeGame.update`, AUTO FOLLOW block) -/

/-- Result of one AUTO FOLLOW evaluation: the new `auto_mode`,
`reverse_mode` and `auto_index`, and the frame's movement intent
`(dx, dy)` (initialized to `(0, 0)` and assigned only in the steering
branch). -/
structure TickOut where
  auto_mode : Bool
  reverse_mode : Bool
  auto_index : ℕ
  dx : ℚ
  dy : ℚ
deriving DecidableEq

/-- The AUTO FOLLOW block of `QuantumMazeGame.update` (its effect on
`auto_mode`, `reverse_mode`, `auto_index`, `dx`, `dy`).

The source computes `d = math.hypot(vx, vy)` and compares
`d < max(8, CELL_SIZE * 0.2)`; with `CELL_SIZE = 40` the threshold is
exactly `8`, and `d < 8` iff `vx·vx + vy·vy < 64` (both sides of the former
are nonnegative), which is how the comparison is phrased here to stay in ℚ.
In the steering branch the source emits the unit vector `(vx/d, vy/d)`
(`d ≠ 0` there since `d ≥ 8`); `d` is an irrational square root in general,
so the model returns the pre-normalization vector `(vx, vy)`, which is zero
iff the emitted steering is zero and positively parallel to it otherwise —
all the statements below depend only on that.  When the AUTO FOLLOW guard
fails, the source falls through to manual keyboard input (outside the
navigation core); the auto state is unchanged there and the movement intent
keeps its initialization `(0, 0)`. -/
def autoTick (auto_mode : Bool) (auto_path : List Pt) (auto_index : ℕ)
    (reverse_mode : Bool) (pc : Pt) : TickOut :=
  if auto_mode = true ∧ 2 ≤ auto_path.length ∧ auto_index < auto_path.length then
    -- `self.auto_path[self.auto_index]`; the guard just established that the
    -- index is in range, so the default of `getD` is never used
    let t := auto_path.getD auto_index (0, 0)
    let vx := t.1 - pc.1
    let vy := t.2 - pc.2
    if vx * vx + vy * vy < 64 then
      if auto_path.length ≤ auto_index + 1 then
        { auto_mode := false, reverse_mode := false, auto_index := auto_index + 1,
          dx := 0, dy := 0 }
      else
        { auto_mode := auto_mode, reverse_mode := reverse_mode,
          auto_index := auto_index + 1, dx := 0, dy := 0 }
    else
      { auto_mode := auto_mode, reverse_mode := reverse_mode,
        auto_index := auto_index, dx := vx, dy := vy }
  else
    { auto_mode := auto_mode, reverse_mode := reverse_mode,
      auto_index := auto_index, dx := 0, dy := 0 }

/-- C5 counterexample: following `[(20,20), (60,20), (100,20)]` with
`auto_index = 1` and the agent at `(58,20)` (2 px from the target, within
the threshold 8), the tick increments the cursor to 2 — a waypoint remains —
yet emits zero movement, although the new target `(100,20)` is 42 px away,
so the recomputation the claim promises would emit a nonzero (unit)
steering vector.  The arrival check is deferred to the next frame. -/
theorem claim_C5_cex :
    autoTick true [((20 : ℚ), (20 : ℚ)), (60, 20), (100, 20)] 1 false (58, 20)
      = { auto_mode := true, reverse_mode := false, auto_index := 2,
          dx := 0, dy := 0 } ∧
    ((100 : ℚ) - 58) * ((100 : ℚ) - 58) + ((20 : ℚ) - 20) * ((20 : ℚ) - 20) ≥ 64 := by
  constructor
  · unfold autoTick
    rw [if_pos ⟨rfl, by norm_num, by norm_num⟩]
    norm_num [List.getD]
  · norm_num

/-- C5 amended: on an autopilot tick whose agent is within the arrival
threshold of the current target, the cursor is incremented and — contrary to
the claim — the arrival check is deferred to the next frame: the tick emits
no steering even when waypoints remain (the new target is engaged on the
next tick).  When the cursor passes the last index the autopilot transitions
to idle; in every arrival case the emitted movement intent is zero. -/
theorem claim_C5_amended (path : List Pt) (i : ℕ) (rev : Bool) (pc : Pt)
    (hlen : 2 ≤ path.length) (hi : i < path.length)
    (harr : ((path.getD i (0, 0)).1 - pc.1) * ((path.getD i (0, 0)).1 - pc.1)
          + ((path.getD i (0, 0)).2 - pc.2) * ((path.getD i (0, 0)).2 - pc.2) < 64) :
    autoTick true path i rev pc =
      (if path.length ≤ i + 1 then
        { auto_mode := false, reverse_mode := false, auto_index := i + 1,
          dx := 0, dy := 0 }
      else
        { auto_mode := true, reverse_mode := rev, auto_index := i + 1,
          dx := 0, dy := 0 }) := by
  unfold autoTick
  rw [if_pos ⟨rfl, hlen, hi⟩]
  dsimp only
  rw [if_pos harr]

/-- C5 witness: `claim_C5_amended` applied to a concrete mid-route arrival. -/
theorem claim_C5_witness :
    (2 ≤ ([((20 : ℚ), (20 : ℚ)), (60, 20), (100, 20)] : List Pt).length) ∧
    autoTick true [((20 : ℚ), (20 : ℚ)), (60, 20), (100, 20)] 1 false (58, 20)
      = (if ([((20 : ℚ), (20 : ℚ)), (60, 20), (100, 20)] : List Pt).length ≤ 1 + 1 then
          { auto_mode := false, reverse_mode := false, auto_index := 1 + 1,
            dx := 0, dy := 0 }
        else
          { auto_mode := true, reverse_mode := false, auto_index := 1 + 1,
            dx := 0, dy := 0 }) :=
  ⟨by norm_num,
    claim_C5_amended [((20 : ℚ), (20 : ℚ)), (60, 20), (100, 20)] 1 false (58, 20)
      (by norm_num) (by norm_num) (by norm_num [List.getD])⟩

/-! ## Approximate longest route (`PathFinder.longest_approx`) -/

/-- First-match lookup in an association list.  Python dicts are modelled as
insertion-ordered association lists; the code only ever inserts keys that are
absent, so keys are unique and first-match lookup is dict lookup. -/
def alookup {β : Type} : List (Cell × β) → Cell → Option β
  | [], _ => none
  | (k, v) :: rest, c => if c = k then some v else alookup rest c

/-- The in-bounds cells of the grid, as a finite set (used only to size the
fuel of the search loops). -/
def cellFS (pf : PathFinder) : Finset Cell :=
  Finset.Icc 0 (pf.cols - 1) ×ˢ Finset.Icc 0 (pf.rows - 1)

/-- The body of the BFS `for n in self._neighbors(c)` loop:
`if n not in dist: dist[n] = dist[c]+1; par[n] = c; q.append(n)`. -/
def bfsExpand (dc : ℕ) (c : Cell) :
    List Cell → List Cell × List (Cell × ℕ) × List (Cell × Option Cell) →
    List Cell × List (Cell × ℕ) × List (Cell × Option Cell)
  | [], acc => acc
  | n :: ns, (q, dist, par) =>
      if alookup dist n = none then
        bfsExpand dc c ns (q ++ [n], dist ++ [(n, dc + 1)], par ++ [(n, some c)])
      else bfsExpand dc c ns (q, dist, par)

/-- The BFS `while q:` loop of `longest_approx`, with explicit fuel.  Each
iteration pops one cell, and a cell is enqueued only when it is added to
`dist`, which happens at most once per in-bounds cell — so the loop runs at
most `1 + (cellFS pf).card` iterations and the fuel passed by `bfs` is never
exhausted.  `dist[c]` is modelled by `getD 0`: every queued cell is in
`dist` (a missing key would be a `KeyError` in the source). -/
def bfsLoop (pf : PathFinder) :
    ℕ → List Cell → List (Cell × ℕ) → List (Cell × Option Cell) →
    List (Cell × ℕ) × List (Cell × Option Cell)
  | 0, _, dist, par => (dist, par)
  | _ + 1, [], dist, par => (dist, par)
  | fuel + 1, c :: q, dist, par =>
      match bfsExpand ((alookup dist c).getD 0) c (neighbors pf c) (q, dist, par) with
      | (q2, dist2, par2) => bfsLoop pf fuel q2 dist2 par2

/-- `far = max(dist, key=lambda k: dist[k])`: iterate the keys in insertion
order keeping the first key attaining the eventual maximum (Python's `max`
replaces the running best only on strictly greater values).  `dist` is never
empty — it always holds the BFS start — so the `[]` default is unreachable. -/
def farOf : List (Cell × ℕ) → Cell
  | [] => (0, 0)
  | (c0, d0) :: rest =>
      (rest.foldl (fun best p => if best.2 < p.2 then p else best) (c0, d0)).1

/-- The inner `bfs(start)` of `longest_approx`: returns
`(far, dist, par)`. -/
def bfs (pf : PathFinder) (start : Cell) :
    Cell × List (Cell × ℕ) × List (Cell × Option Cell) :=
  match bfsLoop pf ((cellFS pf).card + 2) [start] [(start, 0)] [(start, none)] with
  | (dist, par) => (farOf dist, dist, par)

/-- The blocked-start substitution scan
`for cy in range(self.rows): for cx in range(self.cols): …`: the first
unblocked cell in row-major order, if any (`none` leaves `s` unchanged in
`longest_approx`, mirroring the source's for-else falling through). -/
def firstFree (pf : PathFinder) : Option Cell :=
  (((List.range pf.rows.toNat).flatMap fun cy =>
      (List.range pf.cols.toNat).map fun cx => (Int.ofNat cx, Int.ofNat cy)).find?
    (fun c => decide (¬ Blocked pf c)))

/-- The reconstruction loop `while c is not None: path.append(c); c = par[c]`
(used by `shortest` on `came` and by `longest_approx` on `par`), with fuel.
Every call site passes the association list's length; the loop invariants
prove each stored parent was inserted strictly before its child, so the
chain ends within `length` steps and the fuel is never exhausted.  A missing
key would be a `KeyError` in the source; the invariants rule it out. -/
def chainRec (par : List (Cell × Option Cell)) : ℕ → Cell → List Cell
  | 0, _ => []
  | fuel + 1, c =>
      match alookup par c with
      | none => []
      | some none => [c]
      | some (some q) => c :: chainRec par fuel q

/-- `PathFinder.longest_approx(start_px)`: double-BFS eccentricity sweep. -/
def longest_approx (pf : PathFinder) (start : Pt) : List (ℤ × ℤ) :=
  let s0 := pt_to_cell pf start
  let s := if Blocked pf s0 then (firstFree pf).getD s0 else s0
  let A := (bfs pf s).1
  match bfs pf A with
  | (B, _, par) => ((chainRec par par.length B).reverse).map cell_to_pt

/-- On a grid whose in-bounds cells are all blocked, every neighbor list is
empty. -/
theorem neighbors_allBlocked (pf : PathFinder)
    (hb : ∀ c : Cell, 0 ≤ c.1 → c.1 < pf.cols → 0 ≤ c.2 → c.2 < pf.rows →
      Blocked pf c) (c : Cell) : neighbors pf c = [] := by
  unfold neighbors
  rw [List.filter_eq_nil_iff]
  intro n _
  simp only [decide_eq_true_eq, not_and, not_not]
  intro h1 h2 h3 h4
  exact hb n h1 h2 h3 h4

/-- On a fully blocked grid the BFS never leaves its start. -/
theorem bfs_allBlocked (pf : PathFinder)
    (hb : ∀ c : Cell, 0 ≤ c.1 → c.1 < pf.cols → 0 ≤ c.2 → c.2 < pf.rows →
      Blocked pf c) (s : Cell) : bfs pf s = (s, [(s, 0)], [(s, none)]) := by
  unfold bfs
  have h2 : (cellFS pf).card + 2 = ((cellFS pf).card + 1) + 1 := rfl
  rw [h2, bfsLoop, neighbors_allBlocked pf hb]
  show (match bfsLoop pf ((cellFS pf).card + 1) [] [(s, 0)] [(s, none)] with
    | (dist, par) => (farOf dist, dist, par)) = _
  rw [bfsLoop]
  rfl

/-- On a fully blocked grid `firstFree` finds nothing. -/
theorem firstFree_allBlocked (pf : PathFinder)
    (hb : ∀ c : Cell, 0 ≤ c.1 → c.1 < pf.cols → 0 ≤ c.2 → c.2 < pf.rows →
      Blocked pf c) : firstFree pf = none := by
  unfold firstFree
  rw [List.find?_eq_none]
  intro c hc
  rw [List.mem_flatMap] at hc
  obtain ⟨cy, hcy, hc2⟩ := hc
  rw [List.mem_map] at hc2
  obtain ⟨cx, hcx, rfl⟩ := hc2
  rw [List.mem_range] at hcy hcx
  simp only [decide_eq_true_eq, not_not]
  refine hb _ (by simp) ?_ (by simp) ?_
  · show (cx : ℤ) < pf.cols
    omega
  · show (cy : ℤ) < pf.rows
    omega

/-- Shared core of C4: on a grid whose cells are all blocked,
`longest_approx` returns the singleton route at the (clamped) start cell —
the substitution scan finds no free cell and leaves the start in place, and
both BFS passes stay on it. -/
theorem longest_approx_allBlocked (pf : PathFinder) (start : Pt)
    (hb : ∀ c : Cell, 0 ≤ c.1 → c.1 < pf.cols → 0 ≤ c.2 → c.2 < pf.rows →
      Blocked pf c) :
    longest_approx pf start = [cell_to_pt (pt_to_cell pf start)] := by
  have hchain : ∀ c : Cell, chainRec [(c, none)] 1 c = [c] := by
    intro c
    show chainRec [(c, none)] (0 + 1) c = [c]
    rw [chainRec, alookup, if_pos rfl]
  have hs : (if Blocked pf (pt_to_cell pf start) then
      (firstFree pf).getD (pt_to_cell pf start) else pt_to_cell pf start)
      = pt_to_cell pf start := by
    split
    · rw [firstFree_allBlocked pf hb]
      rfl
    · rfl
  unfold longest_approx
  dsimp only
  rw [hs, bfs_allBlocked pf hb]
  dsimp only
  rw [bfs_allBlocked pf hb]
  dsimp only
  rw [List.length_cons, List.length_nil, hchain]
  rfl

/-- A 1×1 grid whose single cell is covered by a wall: a fully blocked
grid index. -/
def pfB : PathFinder :=
  PathFinder.ofLevel { world_w := 40, world_h := 40, walls := [⟨0, 0, 40, 40⟩] }

theorem pfB_allBlocked : ∀ c : Cell, 0 ≤ c.1 → c.1 < pfB.cols → 0 ≤ c.2 →
    c.2 < pfB.rows → Blocked pfB c := by
  intro c h1 h2 h3 h4
  have hcols : pfB.cols = 1 := by decide
  have hrows : pfB.rows = 1 := by decide
  obtain ⟨x, y⟩ := c
  simp only at h1 h2 h3 h4
  rw [hcols] at h2
  rw [hrows] at h4
  have hx : x = 0 := by omega
  have hy : y = 0 := by omega
  subst hx; subst hy
  decide

/-- C4 counterexample: on the fully blocked 1×1 grid `pfB`, `longest_approx`
does not return the empty route (it returns the one-waypoint route at the
start cell: the for-else substitution scan finds nothing and leaves the
blocked start cell in place, and `bfs` always records the start itself). -/
theorem claim_C4_cex :
    (∀ c : Cell, 0 ≤ c.1 → c.1 < pfB.cols → 0 ≤ c.2 → c.2 < pfB.rows →
      Blocked pfB c) ∧
    longest_approx pfB (5, 5) ≠ [] := by
  refine ⟨pfB_allBlocked, ?_⟩
  rw [longest_approx_allBlocked pfB (5, 5) pfB_allBlocked]
  simp

/-- C4 amended: on a grid index in which every cell is blocked, the
approximate longest-route computation returns — instead of the empty
route — the one-waypoint route at the (clamped) start cell's center: the
row-major substitution scan finds no free cell and leaves the start cell in
place, and both BFS passes never leave it. -/
theorem claim_C4_amended (pf : PathFinder) (start : Pt)
    (hb : ∀ c : Cell, 0 ≤ c.1 → c.1 < pf.cols → 0 ≤ c.2 → c.2 < pf.rows →
      Blocked pf c) :
    longest_approx pf start = [cell_to_pt (pt_to_cell pf start)] ∧
    longest_approx pf start ≠ [] := by
  refine ⟨longest_approx_allBlocked pf start hb, ?_⟩
  rw [longest_approx_allBlocked pf start hb]
  simp

/-- C4 witness: `claim_C4_amended` on the concrete fully blocked grid. -/
theorem claim_C4_witness :
    (∀ c : Cell, 0 ≤ c.1 → c.1 < pfB.cols → 0 ≤ c.2 → c.2 < pfB.rows →
      Blocked pfB c) ∧
    (longest_approx pfB (5, 5) = [cell_to_pt (pt_to_cell pfB (5, 5))] ∧
      longest_approx pfB (5, 5) ≠ []) :=
  ⟨pfB_allBlocked, claim_C4_amended pfB (5, 5) pfB_allBlocked⟩

/-! ## Shortest route (`PathFinder.shortest`): the cell graph -/

/-- Adjacency: `b` is yielded by `_neighbors(a)` (cardinal neighbor, in
bounds, not blocked). -/
def Adj (pf : PathFinder) (a b : Cell) : Prop := b ∈ neighbors pf a

/-- A walk of `n` unit steps from `a` to `b` along `_neighbors` edges. -/
inductive Walk (pf : PathFinder) : Cell → Cell → ℕ → Prop
  | refl (c : Cell) : Walk pf c c 0
  | cons {a b c : Cell} {n : ℕ} : Adj pf a b → Walk pf b c n → Walk pf a c (n + 1)

/-- `n` is the minimum walk length from `a` to `b` — the claim-side "true
minimum number of cell steps". -/
def MinWalk (pf : PathFinder) (a b : Cell) (n : ℕ) : Prop :=
  Walk pf a b n ∧ ∀ m, Walk pf a b m → n ≤ m

/-- Some path of unblocked 4-connected cells joins `a` to `b`. -/
def Connected (pf : PathFinder) (a b : Cell) : Prop := ∃ n, Walk pf a b n

/-- The heuristic `h(a, b) = abs(a[0]-b[0]) + abs(a[1]-b[1])`. -/
def manh (a b : Cell) : ℕ := (a.1 - b.1).natAbs + (a.2 - b.2).natAbs

theorem manh_self (g : Cell) : manh g g = 0 := by
  unfold manh
  omega

theorem walk_snoc {pf : PathFinder} {a b c : Cell} {n : ℕ}
    (h : Walk pf a b n) (hadj : Adj pf b c) : Walk pf a c (n + 1) := by
  induction h with
  | refl d => exact Walk.cons hadj (Walk.refl c)
  | cons hab hw ih => exact Walk.cons hab (ih hadj)

theorem walk_zero {pf : PathFinder} {a b : Cell} (h : Walk pf a b 0) : a = b := by
  cases h
  rfl

theorem walk_snoc_inv {pf : PathFinder} {a c : Cell} {n : ℕ}
    (h : Walk pf a c (n + 1)) : ∃ b, Walk pf a b n ∧ Adj pf b c := by
  induction n generalizing a with
  | zero =>
      cases h with
      | cons hab hw =>
          cases hw
          exact ⟨a, Walk.refl a, hab⟩
  | succ k ih =>
      cases h with
      | cons hab hw =>
          obtain ⟨y, hy, hyc⟩ := ih hw
          exact ⟨y, Walk.cons hab hy, hyc⟩

theorem minWalk_exists {pf : PathFinder} {a b : Cell} {m : ℕ}
    (h : Walk pf a b m) : ∃ n, MinWalk pf a b n := by
  classical
  have hex : ∃ n, Walk pf a b n := ⟨m, h⟩
  exact ⟨Nat.find hex, Nat.find_spec hex, fun k hk => Nat.find_min' hex hk⟩

theorem minWalk_unique {pf : PathFinder} {a b : Cell} {n m : ℕ}
    (h1 : MinWalk pf a b n) (h2 : MinWalk pf a b m) : n = m :=
  le_antisymm (h1.2 m h2.1) (h2.2 n h1.1)

theorem minWalk_self (pf : PathFinder) (a : Cell) : MinWalk pf a a 0 :=
  ⟨Walk.refl a, fun m _ => Nat.zero_le m⟩

/-- One `_neighbors` step moves exactly one coordinate by one, so the
Manhattan heuristic changes by at most one per step (consistency). -/
theorem adj_manh {pf : PathFinder} {a b : Cell} (h : Adj pf a b) (g : Cell) :
    manh a g ≤ 1 + manh b g := by
  unfold Adj neighbors at h
  rw [List.mem_filter] at h
  have hmem := h.1
  unfold manh
  simp only [List.mem_cons, List.mem_singleton, List.not_mem_nil] at hmem
  rcases hmem with h1 | h1 | h1 | h1 | h1 <;> first
    | (subst h1; omega)
    | exact absurd h1 (by simp)

theorem walk_manh {pf : PathFinder} {a b : Cell} {k : ℕ}
    (h : Walk pf a b k) (g : Cell) : manh a g ≤ k + manh b g := by
  induction h with
  | refl c => omega
  | cons hab _ ih =>
      have h1 := adj_manh hab g
      omega

/-! ## Shortest route: the frontier heap -/

/-- A frontier entry `(f, d, cell, parent)` as the source pushes it on the
heap: `(nd + h(n, g), nd, n, cur)`, initially `(h(s, g), 0, s, None)`. -/
structure Entry where
  f : ℕ
  d : ℕ
  c : Cell
  par : Option Cell
deriving DecidableEq

/-- Strict lexicographic order on `(f, d, cell)`.  Python compares the heap
tuples lexicographically; two live entries never agree on `(f, d, cell)`
(every push of a cell strictly lowers its gscore, hence its `d` and `f`), so
the parent component never takes part in a comparison and a minimum under
this order is exactly the entry `heappop` returns. -/
def entryLt (a b : Entry) : Prop :=
  a.f < b.f ∨ (a.f = b.f ∧ (a.d < b.d ∨ (a.d = b.d ∧
    (a.c.1 < b.c.1 ∨ (a.c.1 = b.c.1 ∧ a.c.2 < b.c.2)))))

instance (a b : Entry) : Decidable (entryLt a b) := by
  unfold entryLt
  exact inferInstance

theorem entryLt_irrefl (a : Entry) : ¬ entryLt a a := by
  unfold entryLt
  omega

theorem entryLt_trans {a b c : Entry} (h1 : entryLt a b) (h2 : entryLt b c) :
    entryLt a c := by
  unfold entryLt at *
  omega

theorem entryLe_trans {a b c : Entry} (h1 : ¬ entryLt b a) (h2 : ¬ entryLt c b) :
    ¬ entryLt c a := by
  unfold entryLt at *
  omega

/-- `heapq.heappop`: remove and return a minimal entry (see `entryLt`). -/
def popMin (l : List Entry) : Option (Entry × List Entry) :=
  match l with
  | [] => none
  | x :: xs =>
      (some ((xs.foldl (fun a b => if entryLt b a then b else a) x),
        (x :: xs).erase (xs.foldl (fun a b => if entryLt b a then b else a) x)))

theorem foldl_min_mem (xs : List Entry) (a : Entry) :
    xs.foldl (fun a b => if entryLt b a then b else a) a = a ∨
      xs.foldl (fun a b => if entryLt b a then b else a) a ∈ xs := by
  induction xs generalizing a with
  | nil => exact Or.inl rfl
  | cons b rest ih =>
      show (rest.foldl _ (if entryLt b a then b else a)) = a ∨
        (rest.foldl _ (if entryLt b a then b else a)) ∈ b :: rest
      by_cases hba : entryLt b a
      · rw [if_pos hba]
        rcases ih b with h | h
        · rw [h]
          exact Or.inr (List.mem_cons_self _ _)
        · exact Or.inr (List.mem_cons_of_mem _ h)
      · rw [if_neg hba]
        rcases ih a with h | h
        · exact Or.inl h
        · exact Or.inr (List.mem_cons_of_mem _ h)

theorem foldl_min_le (xs : List Entry) :
    ∀ (a : Entry) (y : Entry), (y = a ∨ y ∈ xs) →
      ¬ entryLt y (xs.foldl (fun a b => if entryLt b a then b else a) a) := by
  induction xs with
  | nil =>
      intro a y hy
      rcases hy with rfl | hy
      · exact entryLt_irrefl y
      · exact absurd hy (List.not_mem_nil y)
  | cons b rest ih =>
      intro a y hy
      show ¬ entryLt y (rest.foldl _ (if entryLt b a then b else a))
      by_cases hba : entryLt b a
      · rw [if_pos hba]
        rcases hy with hEq | hy
        · have hb : ¬ entryLt b (rest.foldl _ b) := ih b b (Or.inl rfl)
          rw [hEq]
          intro hc
          exact hb (entryLt_trans hba hc)
        · rcases List.mem_cons.mp hy with hEq | hy
          · rw [hEq]
            exact ih b b (Or.inl rfl)
          · exact ih b y (Or.inr hy)
      · rw [if_neg hba]
        rcases hy with hEq | hy
        · rw [hEq]
          exact ih a a (Or.inl rfl)
        · rcases List.mem_cons.mp hy with hEq | hy
          · have ha : ¬ entryLt a (rest.foldl _ a) := ih a a (Or.inl rfl)
            rw [hEq]
            exact entryLe_trans ha hba
          · exact ih a y (Or.inr hy)

theorem popMin_mem {l : List Entry} {e : Entry} {r : List Entry}
    (h : popMin l = some (e, r)) : e ∈ l := by
  match l with
  | [] => exact absurd h (by simp [popMin])
  | x :: xs =>
      unfold popMin at h
      injection h with h1
      injection h1 with h2 h3
      subst h2
      rcases foldl_min_mem xs x with h | h
      · rw [h]; exact List.mem_cons_self _ _
      · exact List.mem_cons_of_mem _ h

theorem popMin_min {l : List Entry} {e : Entry} {r : List Entry}
    (h : popMin l = some (e, r)) : ∀ x ∈ l, ¬ entryLt x e := by
  match l with
  | [] => exact absurd h (by simp [popMin])
  | x :: xs =>
      unfold popMin at h
      injection h with h1
      injection h1 with h2 h3
      subst h2
      intro y hy
      rcases List.mem_cons.mp hy with rfl | hy
      · exact foldl_min_le xs y y (Or.inl rfl)
      · exact foldl_min_le xs x y (Or.inr hy)

theorem popMin_rest {l : List Entry} {e : Entry} {r : List Entry}
    (h : popMin l = some (e, r)) : r = l.erase e := by
  match l with
  | [] => exact absurd h (by simp [popMin])
  | x :: xs =>
      unfold popMin at h
      injection h with h1
      injection h1 with h2 h3
      rw [← h2]
      exact h3.symm

theorem popMin_perm {l : List Entry} {e : Entry} {r : List Entry}
    (h : popMin l = some (e, r)) : l.Perm (e :: r) := by
  rw [popMin_rest h]
  exact List.perm_cons_erase (popMin_mem h)

theorem popMin_length {l : List Entry} {e : Entry} {r : List Entry}
    (h : popMin l = some (e, r)) : l.length = r.length + 1 := by
  have hp := popMin_perm h
  rw [hp.length_eq]
  rfl

theorem popMin_mem_iff {l : List Entry} {e : Entry} {r : List Entry}
    (h : popMin l = some (e, r)) (x : Entry) : x ∈ l ↔ (x = e ∨ x ∈ r) := by
  rw [(popMin_perm h).mem_iff]
  exact List.mem_cons

theorem popMin_none {l : List Entry} (h : popMin l = none) : l = [] := by
  match l with
  | [] => rfl
  | x :: xs => exact absurd h (by simp [popMin])

/-! ## Shortest route: the algorithm -/

/-- The default in `gscore.get(n, 1e9)`; the comparison `nd < 1e9` between a
small Python int and the float `1e9` is exact. -/
def CAP : ℕ := 10 ^ 9

/-- The body of the A* `for n in self._neighbors(cur)` relaxation loop:
`nd = d + 1; if nd < gscore.get(n, 1e9): gscore[n] = nd;
heappush(pq, (nd + h(n, g), nd, n, cur))`.  The heap is modelled as a
multiset of entries: pushes append, `popMin` extracts the heap minimum. -/
def expandA (g : Cell) (e : Entry) :
    List Cell → List Entry × (Cell → Option ℕ) → List Entry × (Cell → Option ℕ)
  | [], acc => acc
  | n :: ns, (pq, g2) =>
      if e.d + 1 < (g2 n).getD CAP then
        expandA g e ns
          (pq ++ [{ f := e.d + 1 + manh n g, d := e.d + 1, c := n, par := some e.c }],
            Function.update g2 n (some (e.d + 1)))
      else expandA g e ns (pq, g2)

/-- Fuel measure for the A* loop: the heap size plus the total gscore weight
over the grid (missing = `CAP`).  A pop removes one entry, and every push
strictly lowers the pushed cell's weight — that is literally the push
guard — so the measure strictly decreases every iteration and a fuel of
`measureA + 1` is never exhausted (see `loopA_strong`). -/
def measureA (pf : PathFinder) (pq : List Entry) (g2 : Cell → Option ℕ) : ℕ :=
  pq.length + ∑ c ∈ cellFS pf, (g2 c).getD CAP

/-- The A* `while pq:` loop of `PathFinder.shortest`, with fuel.  `came` is
the insertion-ordered finalization dict: popping a not-yet-finalized `cur`
appends `came[cur] = par`; a pop of the goal breaks before expanding;
otherwise the neighbors are relaxed and the loop continues. -/
def loopA (pf : PathFinder) (g : Cell) :
    ℕ → List Entry → List (Cell × Option Cell) → (Cell → Option ℕ) →
    List (Cell × Option Cell)
  | 0, _, came, _ => came
  | fuel + 1, pq, came, g2 =>
      match popMin pq with
      | none => came
      | some (e, rest) =>
          if e.c = g then
            (if alookup came e.c = none then came ++ [(e.c, e.par)] else came)
          else
            match expandA g e (neighbors pf e.c) (rest, g2) with
            | (pq2, g22) =>
                loopA pf g fuel pq2
                  (if alookup came e.c = none then came ++ [(e.c, e.par)] else came)
                  g22

/-- The finalization dict produced by the search from start cell `s` to goal
cell `g`: initial heap `[(h(s,g), 0, s, None)]`, initial `gscore = {s: 0}`,
empty `came`. -/
def shortestCame (pf : PathFinder) (s g : Cell) : List (Cell × Option Cell) :=
  loopA pf g
    (measureA pf [{ f := manh s g, d := 0, c := s, par := none }]
      (Function.update (fun _ => none) s (some 0)) + 1)
    [{ f := manh s g, d := 0, c := s, par := none }] []
    (Function.update (fun _ => none) s (some 0))

/-- `PathFinder.shortest(start_px, goal_px)`: empty if either endpoint cell
is blocked; otherwise run the search, return empty if the goal was never
finalized, and otherwise follow the `came` chain from the goal, reverse it
and map the cells to their centers. -/
def shortest (pf : PathFinder) (start goal : Pt) : List (ℤ × ℤ) :=
  if Blocked pf (pt_to_cell pf start) ∨ Blocked pf (pt_to_cell pf goal) then []
  else if alookup (shortestCame pf (pt_to_cell pf start) (pt_to_cell pf goal))
      (pt_to_cell pf goal) = none then []
  else
    ((chainRec (shortestCame pf (pt_to_cell pf start) (pt_to_cell pf goal))
      (shortestCame pf (pt_to_cell pf start) (pt_to_cell pf goal)).length
      (pt_to_cell pf goal)).reverse).map cell_to_pt

theorem chainRec_single (c : Cell) : chainRec [(c, none)] 1 c = [c] := by
  show chainRec [(c, none)] (0 + 1) c = [c]
  rw [chainRec, alookup, if_pos rfl]

theorem popMin_single (x : Entry) : popMin [x] = some (x, []) := by
  unfold popMin
  dsimp only
  rw [List.foldl_nil, List.erase_cons_head]

/-- C9: if start and goal map to the same unblocked cell, `shortest` returns
the one-waypoint route at that cell's center (not the empty route): the
initial entry is popped, finalizes the start cell, and is the goal, so the
reconstruction yields exactly that cell. -/
theorem claim_C9 (pf : PathFinder) (sp gp : Pt)
    (he : pt_to_cell pf sp = pt_to_cell pf gp)
    (hb : ¬ Blocked pf (pt_to_cell pf sp)) :
    shortest pf sp gp = [cell_to_pt (pt_to_cell pf sp)] := by
  unfold shortest
  rw [← he]
  rw [if_neg (by intro h; exact absurd (h.elim id id) hb)]
  have hcame : shortestCame pf (pt_to_cell pf sp) (pt_to_cell pf sp)
      = [(pt_to_cell pf sp, none)] := by
    unfold shortestCame
    rw [loopA, popMin_single]
    dsimp only
    rw [if_pos rfl]
    rw [if_pos (show alookup ([] : List (Cell × Option Cell)) (pt_to_cell pf sp) = none
      from rfl)]
    rfl
  rw [hcame]
  rw [if_neg (by rw [alookup, if_pos rfl]; exact fun h => Option.noConfusion h)]
  rw [show ([(pt_to_cell pf sp, none)] : List (Cell × Option Cell)).length = 1 from rfl]
  rw [chainRec_single]
  rfl

/-- C9 witness: an 80×40 empty world where `(5,5)` and `(15,15)` share the
unblocked cell `(0,0)`. -/
theorem claim_C9_witness :
    (pt_to_cell (PathFinder.ofLevel { world_w := 80, world_h := 40, walls := [] })
        (5, 5)
      = pt_to_cell (PathFinder.ofLevel { world_w := 80, world_h := 40, walls := [] })
        (15, 15)) ∧
    ¬ Blocked (PathFinder.ofLevel { world_w := 80, world_h := 40, walls := [] })
      (pt_to_cell (PathFinder.ofLevel { world_w := 80, world_h := 40, walls := [] })
        (5, 5)) ∧
    shortest (PathFinder.ofLevel { world_w := 80, world_h := 40, walls := [] })
        (5, 5) (15, 15)
      = [cell_to_pt (pt_to_cell
          (PathFinder.ofLevel { world_w := 80, world_h := 40, walls := [] }) (5, 5))] := by
  have h1 : pt_to_cell (PathFinder.ofLevel { world_w := 80, world_h := 40, walls := [] })
      (5, 5) = (0, 0) := by
    unfold pt_to_cell PathFinder.ofLevel CELL_SIZE
    norm_num
  have h2 : pt_to_cell (PathFinder.ofLevel { world_w := 80, world_h := 40, walls := [] })
      (15, 15) = (0, 0) := by
    unfold pt_to_cell PathFinder.ofLevel CELL_SIZE
    norm_num
  have he : pt_to_cell (PathFinder.ofLevel { world_w := 80, world_h := 40, walls := [] })
      (5, 5) = pt_to_cell (PathFinder.ofLevel { world_w := 80, world_h := 40, walls := [] })
      (15, 15) := by rw [h1, h2]
  have hb : ¬ Blocked (PathFinder.ofLevel { world_w := 80, world_h := 40, walls := [] })
      (pt_to_cell (PathFinder.ofLevel { world_w := 80, world_h := 40, walls := [] })
        (5, 5)) := by
    rw [h1]
    decide
  exact ⟨he, hb, claim_C9 _ _ _ he hb⟩

/-! ## Shortest route: `came` chains -/

theorem alookup_append_some {β : Type} {l1 : List (Cell × β)} (l2 : List (Cell × β))
    {c : Cell} {v : β} (h : alookup l1 c = some v) : alookup (l1 ++ l2) c = some v := by
  induction l1 with
  | nil => exact absurd h (by simp [alookup])
  | cons kv rest ih =>
      obtain ⟨k, w⟩ := kv
      rw [List.cons_append, alookup]
      rw [alookup] at h
      by_cases hc : c = k
      · rw [if_pos hc] at h ⊢
        exact h
      · rw [if_neg hc] at h ⊢
        exact ih h

theorem alookup_append_none {β : Type} {l1 : List (Cell × β)} (l2 : List (Cell × β))
    {c : Cell} (h : alookup l1 c = none) : alookup (l1 ++ l2) c = alookup l2 c := by
  induction l1 with
  | nil => rfl
  | cons kv rest ih =>
      obtain ⟨k, w⟩ := kv
      rw [List.cons_append, alookup]
      rw [alookup] at h
      by_cases hc : c = k
      · rw [if_pos hc] at h
        exact absurd h (by simp)
      · rw [if_neg hc] at h ⊢
        exact ih h

theorem alookup_append_single_ne {β : Type} {came : List (Cell × β)} {a c : Cell}
    (p : β) (hne : c ≠ a) : alookup (came ++ [(a, p)]) c = alookup came c := by
  cases h : alookup came c with
  | none =>
      rw [alookup_append_none _ h, alookup, if_neg hne]
      rfl
  | some v => exact alookup_append_some _ h

theorem alookup_append_single_self {β : Type} {came : List (Cell × β)} {a : Cell}
    (p : β) (h : alookup came a = none) : alookup (came ++ [(a, p)]) a = some p := by
  rw [alookup_append_none _ h, alookup, if_pos rfl]

/-- Chains in the `came` dict: following stored parents from `c` reaches the
start `s` in exactly `n` adjacency steps (the start's stored parent is
`None`). -/
inductive ChainL (pf : PathFinder) (came : List (Cell × Option Cell)) (s : Cell) :
    Cell → ℕ → Prop
  | base : alookup came s = some none → ChainL pf came s s 0
  | step {c q : Cell} {n : ℕ} : alookup came c = some (some q) → Adj pf q c →
      ChainL pf came s q n → ChainL pf came s c (n + 1)

theorem chainL_walk {pf : PathFinder} {came : List (Cell × Option Cell)}
    {s c : Cell} {n : ℕ} (h : ChainL pf came s c n) : Walk pf s c n := by
  induction h with
  | base _ => exact Walk.refl s
  | step _ hadj _ ih => exact walk_snoc ih hadj

theorem chainL_mono {pf : PathFinder} {came : List (Cell × Option Cell)}
    {s c : Cell} {n : ℕ} (l : List (Cell × Option Cell))
    (h : ChainL pf came s c n) : ChainL pf (came ++ l) s c n := by
  induction h with
  | base h0 => exact ChainL.base (alookup_append_some l h0)
  | step h0 hadj _ ih => exact ChainL.step (alookup_append_some l h0) hadj ih

/-- With fuel exceeding the chain length, the reconstruction loop produces a
list of exactly `n + 1` cells. -/
theorem chainRec_of_chainL {pf : PathFinder} {came : List (Cell × Option Cell)}
    {s c : Cell} {n : ℕ} (h : ChainL pf came s c n) :
    ∀ fuel, n < fuel → (chainRec came fuel c).length = n + 1 := by
  induction h with
  | base h0 =>
      intro fuel hf
      match fuel, hf with
      | f + 1, _ =>
          rw [chainRec, h0]
          rfl
  | step h0 hadj hch ih =>
      intro fuel hf
      match fuel, hf with
      | f + 1, hf =>
          rw [chainRec, h0]
          show (_ :: chainRec came f _).length = _
          rw [List.length_cons, ih f (by omega)]

/-! ## Shortest route: soundness invariant -/

/-- Parent soundness of a frontier entry, as needed for reconstruction: the
initial entry carries no parent and sits on the start; a pushed entry's
parent is adjacent to it and already finalized with a chain to the start. -/
def WParOk (pf : PathFinder) (came : List (Cell × Option Cell)) (s : Cell)
    (e : Entry) : Prop :=
  (e.par = none ∧ e.c = s) ∨
  ∃ q, e.par = some q ∧ Adj pf q e.c ∧
    ∃ m, ChainL pf came s q m ∧ m < came.length

/-- The soundness invariant of the A* loop: every frontier entry is
parent-sound, and every finalized cell has a parent chain to the start that
is shorter than the dict. -/
def WInv (pf : PathFinder) (s : Cell) (pq : List Entry)
    (came : List (Cell × Option Cell)) : Prop :=
  (∀ e ∈ pq, WParOk pf came s e) ∧
  (∀ c p, alookup came c = some p →
    ∃ n, ChainL pf came s c n ∧ n < came.length)

theorem wParOk_mono {pf : PathFinder} {came : List (Cell × Option Cell)}
    {s : Cell} {e : Entry} (l : List (Cell × Option Cell))
    (h : WParOk pf came s e) : WParOk pf (came ++ l) s e := by
  rcases h with ⟨h1, h2⟩ | ⟨q, hq, hadj, m, hch, hm⟩
  · exact Or.inl ⟨h1, h2⟩
  · refine Or.inr ⟨q, hq, hadj, m, chainL_mono l hch, ?_⟩
    rw [List.length_append]
    omega

/-- Membership bookkeeping for `expandA`: the input entries survive, and
every output entry is an input entry or a fresh push for some neighbor. -/
theorem expandA_pq_sub (g : Cell) (e : Entry) :
    ∀ (ns : List Cell) (pq : List Entry) (g2 : Cell → Option ℕ),
      (∀ x ∈ pq, x ∈ (expandA g e ns (pq, g2)).1) ∧
      (∀ x ∈ (expandA g e ns (pq, g2)).1,
        x ∈ pq ∨ ∃ n ∈ ns,
          x = { f := e.d + 1 + manh n g, d := e.d + 1, c := n, par := some e.c }) := by
  intro ns
  induction ns with
  | nil => exact fun pq g2 => ⟨fun x hx => hx, fun x hx => Or.inl hx⟩
  | cons n ns ih =>
      intro pq g2
      rw [expandA]
      by_cases hpush : e.d + 1 < (g2 n).getD CAP
      · rw [if_pos hpush]
        obtain ⟨ih1, ih2⟩ := ih
          (pq ++ [{ f := e.d + 1 + manh n g, d := e.d + 1, c := n, par := some e.c }])
          (Function.update g2 n (some (e.d + 1)))
        refine ⟨fun x hx => ih1 x (List.mem_append_left _ hx), fun x hx => ?_⟩
        rcases ih2 x hx with hx2 | ⟨n2, hn2, hx2⟩
        · rcases List.mem_append.mp hx2 with hx3 | hx3
          · exact Or.inl hx3
          · rcases List.mem_singleton.mp hx3 with rfl
            exact Or.inr ⟨n, List.mem_cons_self _ _, rfl⟩
        · exact Or.inr ⟨n2, List.mem_cons_of_mem _ hn2, hx2⟩
      · rw [if_neg hpush]
        obtain ⟨ih1, ih2⟩ := ih pq g2
        refine ⟨ih1, fun x hx => ?_⟩
        rcases ih2 x hx with hx2 | ⟨n2, hn2, hx2⟩
        · exact Or.inl hx2
        · exact Or.inr ⟨n2, List.mem_cons_of_mem _ hn2, hx2⟩

/-- The soundness half of the loop: every cell the returned dict finalizes
has a parent chain to the start shorter than the dict. -/
theorem loopA_weak (pf : PathFinder) (s g : Cell) :
    ∀ (fuel : ℕ) (pq : List Entry) (came : List (Cell × Option Cell))
      (g2 : Cell → Option ℕ),
      WInv pf s pq came →
      ∀ c p, alookup (loopA pf g fuel pq came g2) c = some p →
        ∃ n, ChainL pf (loopA pf g fuel pq came g2) s c n ∧
          n < (loopA pf g fuel pq came g2).length := by
  intro fuel
  induction fuel with
  | zero => exact fun pq came g2 hinv => hinv.2
  | succ f ih =>
      intro pq came g2 hinv
      rw [loopA]
      cases hpop : popMin pq with
      | none => exact hinv.2
      | some pr =>
          obtain ⟨e, rest⟩ := pr
          dsimp only
          have hWe : WParOk pf came s e := hinv.1 e (popMin_mem hpop)
          by_cases hfrz : alookup came e.c = none
          · -- fresh pop: `e.c` is finalized with parent `e.par`
            have hlen2 : (came ++ [(e.c, e.par)]).length = came.length + 1 := by
              rw [List.length_append]
              rfl
            have hchain_ec : ∃ m, ChainL pf (came ++ [(e.c, e.par)]) s e.c m ∧
                m < (came ++ [(e.c, e.par)]).length := by
              rcases hWe with ⟨h1, h2⟩ | ⟨q, hq, hadj, m, hch, hm⟩
              · refine ⟨0, ?_, by rw [hlen2]; omega⟩
                rw [h2] at hfrz ⊢
                rw [h1]
                exact ChainL.base (alookup_append_single_self _ hfrz)
              · refine ⟨m + 1, ?_, by rw [hlen2]; omega⟩
                refine ChainL.step ?_ hadj (chainL_mono _ hch)
                rw [hq]
                exact alookup_append_single_self _ hfrz
            have hfin2 : ∀ c p, alookup (came ++ [(e.c, e.par)]) c = some p →
                ∃ n, ChainL pf (came ++ [(e.c, e.par)]) s c n ∧
                  n < (came ++ [(e.c, e.par)]).length := by
              intro c p hc
              by_cases hce : c = e.c
              · subst hce
                exact hchain_ec
              · rw [alookup_append_single_ne _ hce] at hc
                obtain ⟨n, hch, hn⟩ := hinv.2 c p hc
                exact ⟨n, chainL_mono _ hch, by rw [hlen2]; omega⟩
            rw [if_pos hfrz]
            by_cases hg2 : e.c = g
            · rw [if_pos hg2]
              exact hfin2
            · rw [if_neg hg2]
              cases hexp : expandA g e (neighbors pf e.c) (rest, g2) with
              | mk pq2 g22 =>
                  refine ih pq2 (came ++ [(e.c, e.par)]) g22 ⟨?_, hfin2⟩
                  intro x hx
                  have hsub := (expandA_pq_sub g e (neighbors pf e.c) rest g2).2 x
                  rw [hexp] at hsub
                  rcases hsub hx with hx2 | ⟨n, hn, rfl⟩
                  · have hxpq : x ∈ pq := (popMin_mem_iff hpop x).mpr (Or.inr hx2)
                    exact wParOk_mono _ (hinv.1 x hxpq)
                  · exact Or.inr ⟨e.c, rfl, hn, hchain_ec⟩
          · -- stale pop: the dict is unchanged
            rw [if_neg hfrz]
            by_cases hg2 : e.c = g
            · rw [if_pos hg2]
              exact hinv.2
            · rw [if_neg hg2]
              cases hexp : expandA g e (neighbors pf e.c) (rest, g2) with
              | mk pq2 g22 =>
                  refine ih pq2 came g22 ⟨?_, hinv.2⟩
                  intro x hx
                  have hsub := (expandA_pq_sub g e (neighbors pf e.c) rest g2).2 x
                  rw [hexp] at hsub
                  rcases hsub hx with hx2 | ⟨n, hn, rfl⟩
                  · exact hinv.1 x ((popMin_mem_iff hpop x).mpr (Or.inr hx2))
                  · obtain ⟨p0, hp0⟩ := Option.ne_none_iff_exists'.mp hfrz
                    obtain ⟨m, hch, hm⟩ := hinv.2 e.c p0 hp0
                    exact Or.inr ⟨e.c, rfl, hn, m, hch, hm⟩

/-! ## Shortest route: optimality invariant -/

/-- Exact parent soundness of a frontier entry: the initial entry is
`(h(s,g), 0, s, None)`; a pushed entry was produced while expanding its
(finalized) parent at its optimal distance `m`, so it carries `d = m + 1`. -/
def ParOk (pf : PathFinder) (came : List (Cell × Option Cell)) (s : Cell)
    (e : Entry) : Prop :=
  (e.par = none ∧ e.c = s ∧ e.d = 0) ∨
  ∃ q m, e.par = some q ∧ Adj pf q e.c ∧ (∃ p, alookup came q = some p) ∧
    MinWalk pf s q m ∧ e.d = m + 1

theorem parOk_mono {pf : PathFinder} {came : List (Cell × Option Cell)}
    {s : Cell} {e : Entry} (l : List (Cell × Option Cell))
    (h : ParOk pf came s e) : ParOk pf (came ++ l) s e := by
  rcases h with h | ⟨q, m, hq, hadj, ⟨p, hp⟩, hmq, hd⟩
  · exact Or.inl h
  · exact Or.inr ⟨q, m, hq, hadj, ⟨p, alookup_append_some l hp⟩, hmq, hd⟩

/-- The full loop invariant of the optimality argument: heap entries carry
`f = d + h` and a real walk of length `d` with exact parents; finalized
cells carry minimum-length chains; a finalized cell's neighbors have all
been offered a gscore within one of its optimal distance; gscores are real
walk lengths; an offered, unfinalized cell has a live heap entry at its
gscore; the start is initially on the heap; the goal is not yet finalized. -/
structure SInv (pf : PathFinder) (s g : Cell) (pq : List Entry)
    (came : List (Cell × Option Cell)) (g2 : Cell → Option ℕ) : Prop where
  hpq : ∀ e ∈ pq, e.f = e.d + manh e.c g ∧ Walk pf s e.c e.d ∧ ParOk pf came s e
  hinit : alookup came s = none →
    ({ f := manh s g, d := 0, c := s, par := none } : Entry) ∈ pq
  hfin : ∀ c p, alookup came c = some p →
    ∃ n, MinWalk pf s c n ∧ ChainL pf came s c n ∧ n < came.length
  hoffer : ∀ c p, alookup came c = some p → ∀ n ∈ neighbors pf c,
    ∃ v, g2 n = some v ∧ ∃ m, MinWalk pf s c m ∧ v ≤ m + 1
  hg2 : ∀ c v, g2 c = some v → Walk pf s c v
  hlive : ∀ c v, g2 c = some v → alookup came c = none →
    ∃ e ∈ pq, e.c = c ∧ e.d = v
  hgnf : alookup came g = none

/-- Frontier covering: every unfinalized reachable cell `z` has a heap entry
on a shortest `s → z` path whose `d` is that entry cell's optimal
distance. -/
theorem frontier_cover {pf : PathFinder} {s g : Cell} {pq : List Entry}
    {came : List (Cell × Option Cell)} {g2 : Cell → Option ℕ}
    (hs : SInv pf s g pq came g2) :
    ∀ (m : ℕ) (z : Cell), MinWalk pf s z m → alookup came z = none →
      ∃ e ∈ pq, MinWalk pf s e.c e.d ∧ ∃ k, Walk pf e.c z k ∧ e.d + k = m := by
  intro m
  induction m using Nat.strong_induction_on with
  | _ m ih =>
      intro z hz hzn
      match m, hz with
      | 0, hz =>
          have hzs : s = z := walk_zero hz.1
          subst hzs
          exact ⟨_, hs.hinit hzn, minWalk_self pf s, 0, Walk.refl s, rfl⟩
      | m + 1, hz =>
          obtain ⟨y, hy, hyz⟩ := walk_snoc_inv hz.1
          have hymin : MinWalk pf s y m := by
            refine ⟨hy, fun j hj => ?_⟩
            by_contra hc
            push_neg at hc
            have hzj : Walk pf s z (j + 1) := walk_snoc hj hyz
            have := hz.2 (j + 1) hzj
            omega
          cases hyfin : alookup came y with
          | some py =>
              obtain ⟨v, hv, my, hmy, hvle⟩ := hs.hoffer y py hyfin z hyz
              have hmy_eq : my = m := minWalk_unique hmy hymin
              have hwv : Walk pf s z v := hs.hg2 z v hv
              have hvge : m + 1 ≤ v := hz.2 v hwv
              have hveq : v = m + 1 := by omega
              obtain ⟨e2, he2, hec, hed⟩ := hs.hlive z v hv hzn
              refine ⟨e2, he2, ?_, 0, ?_, ?_⟩
              · rw [hec, hed, hveq]
                exact hz
              · rw [hec]
                exact Walk.refl z
              · rw [hed, hveq]
          | none =>
              obtain ⟨e2, he2, hmin2, k, hk, hsum⟩ := ih m (by omega) y hymin hyfin
              exact ⟨e2, he2, hmin2, k + 1, walk_snoc hk hyz, by omega⟩

/-- First-pop optimality: a popped entry of a not-yet-finalized cell carries
that cell's optimal distance (this is where the heap minimality and the
consistency of the Manhattan heuristic combine). -/
theorem pop_opt {pf : PathFinder} {s g : Cell} {pq rest : List Entry}
    {came : List (Cell × Option Cell)} {g2 : Cell → Option ℕ} {e : Entry}
    (hs : SInv pf s g pq came g2) (hpop : popMin pq = some (e, rest))
    (hfr : alookup came e.c = none) : MinWalk pf s e.c e.d := by
  obtain ⟨hf, hw, -⟩ := hs.hpq e (popMin_mem hpop)
  obtain ⟨dstar, hdstar⟩ := minWalk_exists hw
  obtain ⟨e2, he2, -, k, hk, hsum⟩ := frontier_cover hs dstar e.c hdstar hfr
  have hle : ¬ entryLt e2 e := popMin_min hpop e2 he2
  obtain ⟨hf2, hw2, -⟩ := hs.hpq e2 he2
  have hman : manh e2.c g ≤ k + manh e.c g := walk_manh hk g
  have hge : dstar ≤ e.d := hdstar.2 e.d hw
  have hdeq : e.d = dstar := by
    unfold entryLt at hle
    omega
  rw [hdeq]
  exact hdstar

/-- Every pop, while the goal is unfinalized and reachable, carries
`d ≤ dist(s, g)`: the covering entry for the goal bounds the heap minimum. -/
theorem pop_d_le {pf : PathFinder} {s g : Cell} {pq rest : List Entry}
    {came : List (Cell × Option Cell)} {g2 : Cell → Option ℕ} {e : Entry} {dg : ℕ}
    (hs : SInv pf s g pq came g2) (hpop : popMin pq = some (e, rest))
    (hdg : MinWalk pf s g dg) : e.d ≤ dg := by
  obtain ⟨e2, he2, -, k, hk, hsum⟩ := frontier_cover hs dg g hdg hs.hgnf
  have hle : ¬ entryLt e2 e := popMin_min hpop e2 he2
  obtain ⟨hf2, hw2, -⟩ := hs.hpq e2 he2
  obtain ⟨hf, hw, -⟩ := hs.hpq e (popMin_mem hpop)
  have hman : manh e2.c g ≤ k + manh g g := walk_manh hk g
  rw [manh_self] at hman
  unfold entryLt at hle
  omega

/-- The gscore bookkeeping of `expandA`, relative to the input state. -/
theorem expandA_spec (g : Cell) (e : Entry) :
    ∀ (ns : List Cell) (pq : List Entry) (g2 : Cell → Option ℕ),
      (∀ c v, (expandA g e ns (pq, g2)).2 c = some v →
        g2 c = some v ∨ (c ∈ ns ∧ v = e.d + 1)) ∧
      (e.d + 1 < CAP → ∀ n ∈ ns,
        ∃ v, (expandA g e ns (pq, g2)).2 n = some v ∧ v ≤ e.d + 1) ∧
      (∀ c v, (expandA g e ns (pq, g2)).2 c = some v →
        g2 c = some v ∨
          ({ f := e.d + 1 + manh c g, d := e.d + 1, c := c, par := some e.c }
              ∈ (expandA g e ns (pq, g2)).1 ∧ v = e.d + 1)) ∧
      (∀ c v, g2 c = some v →
        ∃ w, (expandA g e ns (pq, g2)).2 c = some w ∧ w ≤ v) := by
  intro ns
  induction ns with
  | nil =>
      intro pq g2
      exact ⟨fun c v h => Or.inl h, fun _ n hn => absurd hn (List.not_mem_nil n),
        fun c v h => Or.inl h, fun c v h => ⟨v, h, le_refl v⟩⟩
  | cons n ns ih =>
      intro pq g2
      rw [expandA]
      by_cases hpush : e.d + 1 < (g2 n).getD CAP
      · rw [if_pos hpush]
        obtain ⟨ihd, ihe, ihf, ihg⟩ := ih
          (pq ++ [{ f := e.d + 1 + manh n g, d := e.d + 1, c := n, par := some e.c }])
          (Function.update g2 n (some (e.d + 1)))
        refine ⟨?_, ?_, ?_, ?_⟩
        · intro c v hv
          rcases ihd c v hv with hv2 | ⟨hc2, hv2⟩
          · rw [Function.update_apply] at hv2
            by_cases hcn : c = n
            · rw [if_pos hcn] at hv2
              injection hv2 with hv3
              exact Or.inr ⟨by rw [hcn]; exact List.mem_cons_self _ _, hv3.symm⟩
            · rw [if_neg hcn] at hv2
              exact Or.inl hv2
          · exact Or.inr ⟨List.mem_cons_of_mem _ hc2, hv2⟩
        · intro hcap m hm
          rcases List.mem_cons.mp hm with hEq | hm2
          · by_cases hmns : m ∈ ns
            · exact ihe hcap m hmns
            · obtain ⟨w, hw, hwle⟩ := ihg m (e.d + 1)
                (by rw [hEq, Function.update_apply, if_pos rfl])
              exact ⟨w, hw, hwle⟩
          · exact ihe hcap m hm2
        · intro c v hv
          rcases ihf c v hv with hv2 | ⟨hmem, hv2⟩
          · rw [Function.update_apply] at hv2
            by_cases hcn : c = n
            · rw [if_pos hcn] at hv2
              injection hv2 with hv3
              refine Or.inr ⟨?_, hv3.symm⟩
              subst hcn
              exact (expandA_pq_sub g e ns _ _).1 _ (List.mem_append_right _
                (List.mem_singleton.mpr rfl))
            · rw [if_neg hcn] at hv2
              exact Or.inl hv2
          · exact Or.inr ⟨hmem, hv2⟩
        · intro c v hv
          by_cases hcn : c = n
          · subst hcn
            obtain ⟨w, hw, hwle⟩ := ihg c (e.d + 1)
              (by rw [Function.update_apply, if_pos rfl])
            refine ⟨w, hw, ?_⟩
            rw [hv] at hpush
            simp only [Option.getD_some] at hpush
            omega
          · obtain ⟨w, hw, hwle⟩ := ihg c v
              (by rw [Function.update_apply, if_neg hcn]; exact hv)
            exact ⟨w, hw, hwle⟩
      · rw [if_neg hpush]
        obtain ⟨ihd, ihe, ihf, ihg⟩ := ih pq g2
        refine ⟨?_, ?_, ?_, ihg⟩
        · intro c v hv
          rcases ihd c v hv with hv2 | ⟨hc2, hv2⟩
          · exact Or.inl hv2
          · exact Or.inr ⟨List.mem_cons_of_mem _ hc2, hv2⟩
        · intro hcap m hm
          rcases List.mem_cons.mp hm with hEq | hm2
          · subst hEq
            have hnn : ∃ v, g2 m = some v ∧ v ≤ e.d + 1 := by
              cases hg : g2 m with
              | none =>
                  rw [hg] at hpush
                  simp only [Option.getD_none] at hpush
                  omega
              | some v =>
                  rw [hg] at hpush
                  simp only [Option.getD_some] at hpush
                  exact ⟨v, rfl, by omega⟩
            obtain ⟨v, hv, hvle⟩ := hnn
            obtain ⟨w, hw, hwle⟩ := ihg m v hv
            exact ⟨w, hw, by omega⟩
          · exact ihe hcap m hm2
        · intro c v hv
          rcases ihf c v hv with hv2 | ⟨hmem, hv2⟩
          · exact Or.inl hv2
          · exact Or.inr ⟨hmem, hv2⟩

/-- When every neighbor's relaxation is rejected, `expandA` is the
identity. -/
theorem expandA_id (g : Cell) (e : Entry) :
    ∀ (ns : List Cell) (pq : List Entry) (g2 : Cell → Option ℕ),
      (∀ n ∈ ns, ¬ (e.d + 1 < (g2 n).getD CAP)) →
      expandA g e ns (pq, g2) = (pq, g2) := by
  intro ns
  induction ns with
  | nil => exact fun pq g2 _ => rfl
  | cons n ns ih =>
      intro pq g2 hno
      rw [expandA, if_neg (hno n (List.mem_cons_self _ _))]
      exact ih pq g2 (fun x hx => hno x (List.mem_cons_of_mem _ hx))

theorem neighbors_mem_cellFS (pf : PathFinder) (c : Cell) :
    ∀ n ∈ neighbors pf c, n ∈ cellFS pf := by
  intro n hn
  unfold neighbors at hn
  rw [List.mem_filter, decide_eq_true_eq] at hn
  obtain ⟨-, h1, h2, h3, h4, -⟩ := hn
  unfold cellFS
  rw [Finset.mem_product, Finset.mem_Icc, Finset.mem_Icc]
  exact ⟨⟨by omega, by omega⟩, ⟨by omega, by omega⟩⟩

/-- Each accepted push adds one heap entry but strictly lowers the pushed
cell's gscore weight, so the measure does not grow across an expansion. -/
theorem expandA_measure (pf : PathFinder) (g : Cell) (e : Entry) :
    ∀ (ns : List Cell) (pq : List Entry) (g2 : Cell → Option ℕ),
      (∀ n ∈ ns, n ∈ cellFS pf) →
      (expandA g e ns (pq, g2)).1.length
          + ∑ c ∈ cellFS pf, ((expandA g e ns (pq, g2)).2 c).getD CAP
        ≤ pq.length + ∑ c ∈ cellFS pf, (g2 c).getD CAP := by
  intro ns
  induction ns with
  | nil => exact fun pq g2 _ => le_refl _
  | cons n ns ih =>
      intro pq g2 hmem
      rw [expandA]
      by_cases hpush : e.d + 1 < (g2 n).getD CAP
      · rw [if_pos hpush]
        refine le_trans (ih _ _ (fun x hx => hmem x (List.mem_cons_of_mem _ hx))) ?_
        rw [List.length_append, List.length_singleton]
        have hn : n ∈ cellFS pf := hmem n (List.mem_cons_self _ _)
        have hptw : (fun c => ((Function.update g2 n (some (e.d + 1)) c).getD CAP))
            = Function.update (fun c => (g2 c).getD CAP) n (e.d + 1) := by
          funext c
          rw [Function.update_apply, Function.update_apply]
          split
          · rfl
          · rfl
        have hsum : ∑ c ∈ cellFS pf, ((Function.update g2 n (some (e.d + 1)) c).getD CAP)
            = (e.d + 1) + ∑ c ∈ (cellFS pf) \ {n}, (g2 c).getD CAP := by
          rw [show (∑ c ∈ cellFS pf, ((Function.update g2 n (some (e.d + 1)) c).getD CAP))
            = ∑ c ∈ cellFS pf, Function.update (fun c => (g2 c).getD CAP) n (e.d + 1) c
            from by rw [← hptw]]
          exact Finset.sum_update_of_mem hn _ _
        have hold : ∑ c ∈ cellFS pf, (g2 c).getD CAP
            = (g2 n).getD CAP + ∑ c ∈ (cellFS pf) \ {n}, (g2 c).getD CAP := by
          rw [Finset.sdiff_singleton_eq_erase]
          exact (Finset.add_sum_erase _ _ hn).symm
        omega
      · rw [if_neg hpush]
        exact ih _ _ (fun x hx => hmem x (List.mem_cons_of_mem _ hx))

/-- The optimality-and-completeness half of the loop: starting from an
invariant state with the goal reachable at a distance the `1e9` sentinel
accommodates, the fuelled loop finalizes the goal, and every finalized
cell's stored chain has exactly its optimal length (and fits the dict). -/
theorem loopA_strong (pf : PathFinder) (s g : Cell) (dg : ℕ)
    (hdg : MinWalk pf s g dg) (hcap : dg + 2 ≤ CAP) :
    ∀ (fuel : ℕ) (pq : List Entry) (came : List (Cell × Option Cell))
      (g2 : Cell → Option ℕ),
      measureA pf pq g2 < fuel →
      SInv pf s g pq came g2 →
      (∀ c p, alookup (loopA pf g fuel pq came g2) c = some p →
        ∃ n, MinWalk pf s c n ∧ ChainL pf (loopA pf g fuel pq came g2) s c n ∧
          n < (loopA pf g fuel pq came g2).length) ∧
      alookup (loopA pf g fuel pq came g2) g ≠ none := by
  intro fuel
  induction fuel with
  | zero =>
      intro pq came g2 hm hinv
      exact absurd hm (Nat.not_lt_zero _)
  | succ f ih =>
      intro pq came g2 hm hinv
      rw [loopA]
      cases hpop : popMin pq with
      | none =>
          have hpqnil : pq = [] := popMin_none hpop
          refine ⟨hinv.hfin, ?_⟩
          obtain ⟨e2, he2, -⟩ := frontier_cover hinv dg g hdg hinv.hgnf
          rw [hpqnil] at he2
          exact absurd he2 (List.not_mem_nil e2)
      | some pr =>
          obtain ⟨e, rest⟩ := pr
          dsimp only
          obtain ⟨hfE, hwE, hparE⟩ := hinv.hpq e (popMin_mem hpop)
          have hdle : e.d ≤ dg := pop_d_le hinv hpop hdg
          by_cases hfrz : alookup came e.c = none
          · -- fresh pop: `e.c` is finalized at its optimal distance
            have hopt : MinWalk pf s e.c e.d := pop_opt hinv hpop hfrz
            have hlen2 : (came ++ [(e.c, e.par)]).length = came.length + 1 := by
              rw [List.length_append]
              rfl
            have hlook_ec : alookup (came ++ [(e.c, e.par)]) e.c = some e.par :=
              alookup_append_single_self _ hfrz
            have hec_pack : ChainL pf (came ++ [(e.c, e.par)]) s e.c e.d ∧
                e.d < came.length + 1 := by
              rcases hparE with ⟨h1, h2, h3⟩ | ⟨q, mq, hq, hadj, ⟨pq0, hq0⟩, hmq, hd⟩
              · rw [h2] at hfrz
                rw [h1, h2, h3]
                exact ⟨ChainL.base (alookup_append_single_self _ hfrz), by omega⟩
              · obtain ⟨nq, hminq, hchq, hnq⟩ := hinv.hfin q pq0 hq0
                have hnm : nq = mq := minWalk_unique hminq hmq
                constructor
                · rw [hd]
                  refine ChainL.step ?_ hadj ?_
                  · rw [hq]
                    exact alookup_append_single_self _ hfrz
                  · rw [← hnm]
                    exact chainL_mono _ hchq
                · omega
            have hfin2 : ∀ c p, alookup (came ++ [(e.c, e.par)]) c = some p →
                ∃ n, MinWalk pf s c n ∧ ChainL pf (came ++ [(e.c, e.par)]) s c n ∧
                  n < (came ++ [(e.c, e.par)]).length := by
              intro c p hc
              by_cases hce : c = e.c
              · subst hce
                exact ⟨e.d, hopt, hec_pack.1, by rw [hlen2]; exact hec_pack.2⟩
              · rw [alookup_append_single_ne _ hce] at hc
                obtain ⟨n, hmn, hch, hn⟩ := hinv.hfin c p hc
                exact ⟨n, hmn, chainL_mono _ hch, by rw [hlen2]; omega⟩
            by_cases hgoal : e.c = g
            · rw [if_pos hgoal, if_pos hfrz]
              refine ⟨hfin2, ?_⟩
              rw [← hgoal, hlook_ec]
              exact fun h => Option.noConfusion h
            · rw [if_neg hgoal]
              cases hexp : expandA g e (neighbors pf e.c) (rest, g2) with
              | mk pq2 g22 =>
                  dsimp only
                  rw [if_pos hfrz]
                  have hsub := expandA_pq_sub g e (neighbors pf e.c) rest g2
                  rw [hexp] at hsub
                  obtain ⟨hsub1, hsub2⟩ := hsub
                  have hspec := expandA_spec g e (neighbors pf e.c) rest g2
                  rw [hexp] at hspec
                  obtain ⟨hd_, he_, hf_, hg_⟩ := hspec
                  have hcapd : e.d + 1 < CAP := by
                    unfold CAP at hcap ⊢
                    omega
                  refine ih pq2 (came ++ [(e.c, e.par)]) g22 ?_ ?_
                  · have hms := expandA_measure pf g e (neighbors pf e.c) rest g2
                      (neighbors_mem_cellFS pf e.c)
                    rw [hexp] at hms
                    have hlenq := popMin_length hpop
                    unfold measureA at hm ⊢
                    dsimp only at hms
                    omega
                  · refine ⟨?_, ?_, hfin2, ?_, ?_, ?_, ?_⟩
                    · -- hpq
                      intro x hx
                      rcases hsub2 x hx with hx2 | ⟨n, hn, rfl⟩
                      · obtain ⟨ha, hb, hc⟩ := hinv.hpq x
                          ((popMin_mem_iff hpop x).mpr (Or.inr hx2))
                        exact ⟨ha, hb, parOk_mono _ hc⟩
                      · exact ⟨rfl, walk_snoc hwE hn,
                          Or.inr ⟨e.c, e.d, rfl, hn, ⟨e.par, hlook_ec⟩, hopt, rfl⟩⟩
                    · -- hinit
                      intro hns
                      have hnes : e.c ≠ s := by
                        intro hEq
                        have h2 := hlook_ec
                        rw [hEq] at h2 hns
                        rw [hns] at h2
                        exact Option.noConfusion h2
                      have hrw : alookup (came ++ [(e.c, e.par)]) s = alookup came s :=
                        alookup_append_single_ne e.par (Ne.symm hnes)
                      rw [hrw] at hns
                      have hinitpq := hinv.hinit hns
                      have hne2 : ({ f := manh s g, d := 0, c := s, par := none } : Entry)
                          ≠ e := by
                        intro hEq
                        apply hnes
                        rw [← hEq]
                      rcases (popMin_mem_iff hpop _).mp hinitpq with h | h
                      · exact absurd h hne2
                      · exact hsub1 _ h
                    · -- hoffer
                      intro c p hc n hn
                      by_cases hce : c = e.c
                      · subst hce
                        obtain ⟨v, hv, hvle⟩ := he_ hcapd n hn
                        exact ⟨v, hv, e.d, hopt, hvle⟩
                      · rw [alookup_append_single_ne _ hce] at hc
                        obtain ⟨v, hv, mo, hmw, hvle⟩ := hinv.hoffer c p hc n hn
                        obtain ⟨w, hw, hwle⟩ := hg_ n v hv
                        exact ⟨w, hw, mo, hmw, by omega⟩
                    · -- hg2
                      intro c v hv
                      rcases hd_ c v hv with hv2 | ⟨hcn, rfl⟩
                      · exact hinv.hg2 c v hv2
                      · exact walk_snoc hwE hcn
                    · -- hlive
                      intro c v hv hcn
                      have hcne : c ≠ e.c := by
                        intro hEq
                        rw [hEq, hlook_ec] at hcn
                        exact Option.noConfusion hcn
                      rcases hf_ c v hv with hv2 | ⟨hmem, rfl⟩
                      · rw [alookup_append_single_ne _ hcne] at hcn
                        obtain ⟨x, hx, hxc, hxd⟩ := hinv.hlive c v hv2 hcn
                        have hxe : x ≠ e := by
                          intro hEq
                          rw [hEq] at hxc
                          exact hcne hxc.symm
                        rcases (popMin_mem_iff hpop x).mp hx with h | h
                        · exact absurd h hxe
                        · exact ⟨x, hsub1 x h, hxc, hxd⟩
                      · exact ⟨_, hmem, rfl, rfl⟩
                    · -- hgnf
                      rw [alookup_append_single_ne _ (fun h => hgoal h.symm)]
                      exact hinv.hgnf
          · -- stale pop: the cell is already finalized; every relaxation is
            -- rejected (its neighbors were already offered at least as good
            -- a gscore), so the state shrinks by the popped entry
            obtain ⟨p0, hp0⟩ := Option.ne_none_iff_exists'.mp hfrz
            have hgoal : ¬ (e.c = g) := by
              intro hEq
              rw [hEq, hinv.hgnf] at hp0
              exact Option.noConfusion hp0
            rw [if_neg hgoal]
            have hnopush : ∀ n ∈ neighbors pf e.c, ¬ (e.d + 1 < (g2 n).getD CAP) := by
              intro n hn
              obtain ⟨v, hv, mo, hmw, hvle⟩ := hinv.hoffer e.c p0 hp0 n hn
              have hmd : mo ≤ e.d := hmw.2 e.d hwE
              rw [hv]
              simp only [Option.getD_some]
              omega
            rw [expandA_id g e _ rest g2 hnopush]
            dsimp only
            rw [if_neg hfrz]
            refine ih rest came g2 ?_ ?_
            · have hlenq := popMin_length hpop
              unfold measureA at hm ⊢
              omega
            · refine ⟨?_, ?_, hinv.hfin, hinv.hoffer, hinv.hg2, ?_, hinv.hgnf⟩
              · intro x hx
                exact hinv.hpq x ((popMin_mem_iff hpop x).mpr (Or.inr hx))
              · intro hns
                have hinitpq := hinv.hinit hns
                have hne2 : ({ f := manh s g, d := 0, c := s, par := none } : Entry)
                    ≠ e := by
                  intro hEq
                  have hcs : e.c = s := by rw [← hEq]
                  rw [hcs, hns] at hp0
                  exact Option.noConfusion hp0
                rcases (popMin_mem_iff hpop _).mp hinitpq with h | h
                · exact absurd h hne2
                · exact h
              · intro c v hv hcn
                obtain ⟨x, hx, hxc, hxd⟩ := hinv.hlive c v hv hcn
                have hxe : x ≠ e := by
                  intro hEq
                  rw [hEq] at hxc
                  rw [hxc, hcn] at hp0
                  exact Option.noConfusion hp0
                rcases (popMin_mem_iff hpop x).mp hx with h | h
                · exact absurd h hxe
                · exact ⟨x, h, hxc, hxd⟩

/-- The invariant holds at the initial search state
(`pq = [(h(s,g), 0, s, None)]`, `came = {}`, `gscore = {s: 0}`). -/
theorem sinv_init (pf : PathFinder) (s g : Cell) :
    SInv pf s g [{ f := manh s g, d := 0, c := s, par := none }] []
      (Function.update (fun _ => none) s (some 0)) := by
  refine ⟨?_, ?_, ?_, ?_, ?_, ?_, rfl⟩
  · intro e he
    rw [List.mem_singleton] at he
    subst he
    exact ⟨show manh s g = 0 + manh s g by omega, Walk.refl s, Or.inl ⟨rfl, rfl, rfl⟩⟩
  · intro _
    exact List.mem_singleton.mpr rfl
  · intro c p hc
    exact absurd hc (by simp [alookup])
  · intro c p hc
    exact absurd hc (by simp [alookup])
  · intro c v hv
    rw [Function.update_apply] at hv
    by_cases hcs : c = s
    · rw [if_pos hcs] at hv
      injection hv with hv2
      rw [hcs, ← hv2]
      exact Walk.refl s
    · rw [if_neg hcs] at hv
      exact Option.noConfusion hv
  · intro c v hv hcn
    rw [Function.update_apply] at hv
    by_cases hcs : c = s
    · rw [if_pos hcs] at hv
      injection hv with hv2
      exact ⟨_, List.mem_singleton.mpr rfl, hcs.symm, hv2⟩
    · rw [if_neg hcs] at hv
      exact Option.noConfusion hv

theorem winv_init (pf : PathFinder) (s g : Cell) :
    WInv pf s [{ f := manh s g, d := 0, c := s, par := none }] [] := by
  constructor
  · intro e he
    rw [List.mem_singleton] at he
    subst he
    exact Or.inl ⟨rfl, rfl⟩
  · intro c p hc
    exact absurd hc (by simp [alookup])

/-- The search result, under reachability within the sentinel: the goal is
finalized and every finalized chain is optimal. -/
theorem shortestCame_spec (pf : PathFinder) (s g : Cell) (dg : ℕ)
    (hdg : MinWalk pf s g dg) (hcap : dg + 2 ≤ CAP) :
    (∀ c p, alookup (shortestCame pf s g) c = some p →
      ∃ n, MinWalk pf s c n ∧ ChainL pf (shortestCame pf s g) s c n ∧
        n < (shortestCame pf s g).length) ∧
    alookup (shortestCame pf s g) g ≠ none := by
  unfold shortestCame
  exact loopA_strong pf s g dg hdg hcap _ _ _ _ (Nat.lt_succ_self _) (sinv_init pf s g)

/-- Unconditional soundness of the search result: a finalized cell has a
parent chain (hence a real walk) from the start. -/
theorem shortestCame_sound (pf : PathFinder) (s g : Cell) :
    ∀ c p, alookup (shortestCame pf s g) c = some p →
      ∃ n, ChainL pf (shortestCame pf s g) s c n ∧
        n < (shortestCame pf s g).length := by
  unfold shortestCame
  exact loopA_weak pf s g _ _ _ _ (winv_init pf s g)

/-- When the endpoint cells are unblocked and the goal was finalized, the
route is the reversed, center-mapped parent chain. -/
theorem shortest_eq_of_found (pf : PathFinder) (sp gp : Pt) {p : Option Cell}
    (hbs : ¬ Blocked pf (pt_to_cell pf sp)) (hbg : ¬ Blocked pf (pt_to_cell pf gp))
    (hp : alookup (shortestCame pf (pt_to_cell pf sp) (pt_to_cell pf gp))
      (pt_to_cell pf gp) = some p) :
    shortest pf sp gp =
      ((chainRec (shortestCame pf (pt_to_cell pf sp) (pt_to_cell pf gp))
        (shortestCame pf (pt_to_cell pf sp) (pt_to_cell pf gp)).length
        (pt_to_cell pf gp)).reverse).map cell_to_pt := by
  unfold shortest
  rw [if_neg (fun h => h.elim hbs hbg)]
  rw [if_neg (by rw [hp]; exact fun h => Option.noConfusion h)]

/-- C1: for every grid index and every start/goal points whose cells are
unblocked and connected (with the optimal distance within the source's
`1e9` gscore sentinel — the hypothesis `m + 2 ≤ CAP` on the connecting walk),
the route's waypoint count minus one is the least number of cell steps from
the start cell to the goal cell: the A* search with Manhattan heuristic and
unit edge cost is optimal. -/
theorem claim_C1 (pf : PathFinder) (sp gp : Pt) (m : ℕ)
    (hbs : ¬ Blocked pf (pt_to_cell pf sp)) (hbg : ¬ Blocked pf (pt_to_cell pf gp))
    (hw : Walk pf (pt_to_cell pf sp) (pt_to_cell pf gp) m) (hm : m + 2 ≤ CAP) :
    IsLeast { n | Walk pf (pt_to_cell pf sp) (pt_to_cell pf gp) n }
      ((shortest pf sp gp).length - 1) := by
  obtain ⟨dg, hdg⟩ := minWalk_exists hw
  have hcap : dg + 2 ≤ CAP := by
    have := hdg.2 m hw
    omega
  obtain ⟨hfin, hgn⟩ :=
    shortestCame_spec pf (pt_to_cell pf sp) (pt_to_cell pf gp) dg hdg hcap
  obtain ⟨p, hp⟩ := Option.ne_none_iff_exists'.mp hgn
  obtain ⟨n, hmn, hch, hn⟩ := hfin _ p hp
  have hlen : (shortest pf sp gp).length = n + 1 := by
    rw [shortest_eq_of_found pf sp gp hbs hbg hp, List.length_map, List.length_reverse]
    exact chainRec_of_chainL hch _ hn
  constructor
  · rw [Set.mem_setOf_eq, hlen]
    simpa using hmn.1
  · intro k hk
    rw [Set.mem_setOf_eq] at hk
    rw [hlen]
    have := hmn.2 k hk
    omega

/-- An 80×40 empty world (a 2×1 grid) used by the search witnesses. -/
def pfA : PathFinder :=
  PathFinder.ofLevel { world_w := 80, world_h := 40, walls := [] }

/-- C1 witness: `claim_C1` on the concrete 2×1 empty grid with a one-step
walk between the two cells. -/
theorem claim_C1_witness :
    (¬ Blocked pfA (pt_to_cell pfA (5, 5))) ∧
    (¬ Blocked pfA (pt_to_cell pfA (45, 5))) ∧
    Walk pfA (pt_to_cell pfA (5, 5)) (pt_to_cell pfA (45, 5)) 1 ∧
    (1 + 2 ≤ CAP) ∧
    IsLeast { n | Walk pfA (pt_to_cell pfA (5, 5)) (pt_to_cell pfA (45, 5)) n }
      ((shortest pfA (5, 5) (45, 5)).length - 1) := by
  have h1 : pt_to_cell pfA (5, 5) = (0, 0) := by
    unfold pfA pt_to_cell PathFinder.ofLevel CELL_SIZE
    norm_num
  have h2 : pt_to_cell pfA (45, 5) = (1, 0) := by
    unfold pfA pt_to_cell PathFinder.ofLevel CELL_SIZE
    norm_num
  have hbs : ¬ Blocked pfA (pt_to_cell pfA (5, 5)) := by
    rw [h1]
    decide
  have hbg : ¬ Blocked pfA (pt_to_cell pfA (45, 5)) := by
    rw [h2]
    decide
  have hadj : ((1, 0) : Cell) ∈ neighbors pfA (0, 0) := by decide
  have hw : Walk pfA (pt_to_cell pfA (5, 5)) (pt_to_cell pfA (45, 5)) 1 := by
    rw [h1, h2]
    exact Walk.cons hadj (Walk.refl _)
  have hm : 1 + 2 ≤ CAP := by
    norm_num [CAP]
  exact ⟨hbs, hbg, hw, hm, claim_C1 pfA (5, 5) (45, 5) 1 hbs hbg hw hm⟩

/-- The optimal distance, if any, fits the source's `1e9` gscore default:
holds vacuously for disconnected cells and comfortably for any realistic
grid. -/
def SmallDist (pf : PathFinder) (a b : Cell) : Prop :=
  ∀ m, MinWalk pf a b m → m + 2 ≤ CAP

/-- C3: the shortest-route search returns an empty route iff the start cell
is blocked, the goal cell is blocked, or no path of unblocked 4-connected
cells joins them (otherwise the route is nonempty).  The `SmallDist`
hypothesis keeps the optimal distance within the source's `1e9` gscore
sentinel. -/
theorem claim_C3 (pf : PathFinder) (sp gp : Pt)
    (hsmall : SmallDist pf (pt_to_cell pf sp) (pt_to_cell pf gp)) :
    (shortest pf sp gp = [] ↔
      (Blocked pf (pt_to_cell pf sp) ∨ Blocked pf (pt_to_cell pf gp) ∨
        ¬ Connected pf (pt_to_cell pf sp) (pt_to_cell pf gp))) := by
  constructor
  · intro hempty
    by_contra hc
    push_neg at hc
    obtain ⟨hbs, hbg, hconn⟩ := hc
    obtain ⟨mw, hw⟩ := hconn
    obtain ⟨dg, hdg⟩ := minWalk_exists hw
    obtain ⟨hfin, hgn⟩ :=
      shortestCame_spec pf (pt_to_cell pf sp) (pt_to_cell pf gp) dg hdg (hsmall dg hdg)
    obtain ⟨p, hp⟩ := Option.ne_none_iff_exists'.mp hgn
    obtain ⟨n, hmn, hch, hn⟩ := hfin _ p hp
    have hlen : (shortest pf sp gp).length = n + 1 := by
      rw [shortest_eq_of_found pf sp gp hbs hbg hp, List.length_map,
        List.length_reverse]
      exact chainRec_of_chainL hch _ hn
    rw [hempty] at hlen
    exact Nat.noConfusion hlen
  · intro hcase
    rcases hcase with hb | hb | hnc
    · unfold shortest
      rw [if_pos (Or.inl hb)]
    · unfold shortest
      rw [if_pos (Or.inr hb)]
    · by_cases hbb : Blocked pf (pt_to_cell pf sp) ∨ Blocked pf (pt_to_cell pf gp)
      · unfold shortest
        rw [if_pos hbb]
      · unfold shortest
        rw [if_neg hbb]
        by_cases hlk : alookup (shortestCame pf (pt_to_cell pf sp) (pt_to_cell pf gp))
            (pt_to_cell pf gp) = none
        · rw [if_pos hlk]
        · exfalso
          obtain ⟨p, hp⟩ := Option.ne_none_iff_exists'.mp hlk
          obtain ⟨n, hch, -⟩ := shortestCame_sound pf _ _ _ p hp
          exact hnc ⟨n, chainL_walk hch⟩

/-- C3 witness: `claim_C3` on the concrete 2×1 empty grid. -/
theorem claim_C3_witness :
    SmallDist pfA (pt_to_cell pfA (5, 5)) (pt_to_cell pfA (45, 5)) ∧
    (shortest pfA (5, 5) (45, 5) = [] ↔
      (Blocked pfA (pt_to_cell pfA (5, 5)) ∨ Blocked pfA (pt_to_cell pfA (45, 5)) ∨
        ¬ Connected pfA (pt_to_cell pfA (5, 5)) (pt_to_cell pfA (45, 5)))) := by
  have h1 : pt_to_cell pfA (5, 5) = (0, 0) := by
    unfold pfA pt_to_cell PathFinder.ofLevel CELL_SIZE
    norm_num
  have h2 : pt_to_cell pfA (45, 5) = (1, 0) := by
    unfold pfA pt_to_cell PathFinder.ofLevel CELL_SIZE
    norm_num
  have hadj : ((1, 0) : Cell) ∈ neighbors pfA (0, 0) := by decide
  have hw : Walk pfA (pt_to_cell pfA (5, 5)) (pt_to_cell pfA (45, 5)) 1 := by
    rw [h1, h2]
    exact Walk.cons hadj (Walk.refl _)
  have hsmall : SmallDist pfA (pt_to_cell pfA (5, 5)) (pt_to_cell pfA (45, 5)) := by
    intro m hmw
    have := hmw.2 1 hw
    unfold CAP
    omega
  exact ⟨hsmall, claim_C3 pfA (5, 5) (45, 5) hsmall⟩

end MazeGame
